import Mathlib

/-!
Verification development for the customer-experience analytics pipeline
(thematic analysis, sentiment analysis, aggregation, and the top-level
pipeline driver).  Python text values that may be missing (NaN) are
modelled as `Option String`; floating-point scores are modelled as `ℚ`;
pandas dataframes are modelled as lists of records.  External
collaborators (the TF-IDF weight computation, the spaCy lemmatizer, the
DistilBERT/VADER classifiers) are modelled as abstract function
parameters, while every piece of repository logic (tokenisation,
document-frequency pruning, theme binding, tagging, aggregation,
pipeline control flow) is embedded directly.
-/

/-! ## Character and string primitives (models of Python `str` operations) -/

/-- Model of Python `str.lower` on one character (ASCII fragment). -/
def lowerChar (c : Char) : Char :=
  if 65 ≤ c.toNat ∧ c.toNat ≤ 90 then Char.ofNat (c.toNat + 32) else c

/-- Model of Python `str.lower` (ASCII fragment). -/
def lowerStr (s : String) : String := ⟨s.data.map lowerChar⟩

/-- `leadMatch n h` : does character list `h` start with `n`? -/
def leadMatch : List Char → List Char → Bool
  | [], _ => true
  | _ :: _, [] => false
  | a :: as, b :: bs => a == b && leadMatch as bs

/-- `subChars n h` : does `n` occur as a contiguous run inside `h`?
Model of Python `n in h` for strings. -/
def subChars : List Char → List Char → Bool
  | n, [] => leadMatch n []
  | n, b :: bs => leadMatch n (b :: bs) || subChars n bs

/-- Model of the Python substring test `needle in hay`. -/
def substrB (needle hay : String) : Bool := subChars needle.data hay.data

/-- Model of Python `str.strip()` (whitespace trimming at both ends). -/
def trimChars (l : List Char) : List Char :=
  ((l.dropWhile Char.isWhitespace).reverse.dropWhile Char.isWhitespace).reverse

/-- Model of Python `str.strip()`. -/
def trimStr (s : String) : String := ⟨trimChars s.data⟩

/-- Model of Python slicing `s[:n]`. -/
def takeStr (n : Nat) (s : String) : String := ⟨s.data.take n⟩

/-- Lexicographic comparison of character lists by code point
(alphabetical order on ASCII strings). -/
def charsLe : List Char → List Char → Bool
  | [], _ => true
  | _ :: _, [] => false
  | a :: as, b :: bs =>
    if a.toNat < b.toNat then true
    else if b.toNat < a.toNat then false
    else charsLe as bs

/-- Alphabetical string order used by the vectorizer's vocabulary. -/
def strLeB (a b : String) : Bool := charsLe a.data b.data

/-- Join a list of strings with a separator: Python `sep.join(l)`. -/
def joinStrs (sep : String) : List String → String
  | [] => ""
  | [a] => a
  | a :: rest => a ++ sep ++ joinStrs sep rest

/-- Split a character list on whitespace, dropping empty words:
Python `str.split()`.  `cur` holds the (reversed) word being read. -/
def wordsAux (cur : List Char) : List Char → List (List Char)
  | [] => if cur.isEmpty then [] else [cur.reverse]
  | c :: cs =>
    if c.isWhitespace then
      if cur.isEmpty then wordsAux [] cs else cur.reverse :: wordsAux [] cs
    else wordsAux (c :: cur) cs

/-- Words of a string (split on whitespace runs, no empties). -/
def wordsOf (s : String) : List String := (wordsAux [] s.data).map (fun w => ⟨w⟩)

/-- First-occurrence deduplication, the order kept by pandas `unique`.
`seen` accumulates the values already emitted. -/
def uniqueFirstAux [DecidableEq α] (seen : List α) : List α → List α
  | [] => []
  | a :: l => if a ∈ seen then uniqueFirstAux seen l else a :: uniqueFirstAux (a :: seen) l

/-- Model of pandas `Series.unique` (first occurrence order). -/
def uniqueFirst [DecidableEq α] (l : List α) : List α := uniqueFirstAux [] l

/-! ## `ThematicAnalyzer.preprocess_text` -/

/-- Scanner for the regex substitution `re.sub(r'http\S+|www\S+', '', text)`:
once a run starting with `http` or `www` is seen, characters are dropped
until the next whitespace. -/
def stripUrlsGo : Bool → List Char → List Char
  | _, [] => []
  | true, c :: cs =>
    if c.isWhitespace then c :: stripUrlsGo false cs else stripUrlsGo true cs
  | false, c :: cs =>
    if leadMatch "http".data (c :: cs) || leadMatch "www".data (c :: cs) then
      stripUrlsGo true cs
    else c :: stripUrlsGo false cs

/-- A regex `\w` character (ASCII fragment: letters, digits, underscore). -/
def isWordChar (c : Char) : Bool := c.isAlphanum || c == '_'

/-- The substitution `re.sub(r'[^\w\s]', ' ', text)`. -/
def fixChars (l : List Char) : List Char :=
  l.map (fun c => if isWordChar c || c.isWhitespace then c else ' ')

/-- `ThematicAnalyzer.preprocess_text`: empty/missing text maps to `''`;
otherwise lowercase, remove URLs, replace non word/space characters by a
space and collapse whitespace runs (`' '.join(text.split())`). -/
def preprocessText : Option String → String
  | none => ""
  | some s =>
    if s == "" then ""
    else joinStrs " " ((wordsAux [] (fixChars (stripUrlsGo false (lowerStr s).data))).map
      (fun w => ⟨w⟩))

/-! ## The TF-IDF vectorizer's vocabulary construction

`ThematicAnalyzer.extract_keywords_tfidf` delegates to scikit-learn's
`TfidfVectorizer(max_features, ngram_range=(1,2), stop_words='english',
min_df=2, max_df=0.8)`.  The vocabulary construction below models the
vectorizer's documented behaviour: tokenize the (already preprocessed)
text with the default token pattern `\w\w+` (words of at least two word
characters), drop English stop words, form unigrams and bigrams, keep a
term only if its document frequency is at least 2 and at most 80% of the
corpus, and cut to the `max_features` terms of highest corpus term
frequency.  The library raises when the vocabulary comes out empty; the
repository code catches that and returns `[]`. -/

/-- scikit-learn's built-in English stop word list. -/
def stopWords : List String :=
  ["a", "about", "above", "across", "after", "afterwards", "again", "against",
   "all", "almost", "alone", "along", "already", "also", "although", "always",
   "am", "among", "amongst", "amoungst", "amount", "an", "and", "another",
   "any", "anyhow", "anyone", "anything", "anyway", "anywhere", "are",
   "around", "as", "at", "back", "be", "became", "because", "become",
   "becomes", "becoming", "been", "before", "beforehand", "behind", "being",
   "below", "beside", "besides", "between", "beyond", "bill", "both",
   "bottom", "but", "by", "call", "can", "cannot", "cant", "co", "con",
   "could", "couldnt", "cry", "de", "describe", "detail", "do", "done",
   "down", "due", "during", "each", "eg", "eight", "either", "eleven",
   "else", "elsewhere", "empty", "enough", "etc", "even", "ever", "every",
   "everyone", "everything", "everywhere", "except", "few", "fifteen",
   "fifty", "fill", "find", "fire", "first", "five", "for", "former",
   "formerly", "forty", "found", "four", "from", "front", "full", "further",
   "get", "give", "go", "had", "has", "hasnt", "have", "he", "hence", "her",
   "here", "hereafter", "hereby", "herein", "hereupon", "hers", "herself",
   "him", "himself", "his", "how", "however", "hundred", "i", "ie", "if",
   "in", "inc", "indeed", "interest", "into", "is", "it", "its", "itself",
   "keep", "last", "latter", "latterly", "least", "less", "ltd", "made",
   "many", "may", "me", "meanwhile", "might", "mill", "mine", "more",
   "moreover", "most", "mostly", "move", "much", "must", "my", "myself",
   "name", "namely", "neither", "never", "nevertheless", "next", "nine",
   "no", "nobody", "none", "noone", "nor", "not", "nothing", "now",
   "nowhere", "of", "off", "often", "on", "once", "one", "only", "onto",
   "or", "other", "others", "otherwise", "our", "ours", "ourselves", "out",
   "over", "own", "part", "per", "perhaps", "please", "put", "rather", "re",
   "same", "see", "seem", "seemed", "seeming", "seems", "serious", "several",
   "she", "should", "show", "side", "since", "sincere", "six", "sixty", "so",
   "some", "somehow", "someone", "something", "sometime", "sometimes",
   "somewhere", "still", "such", "system", "take", "ten", "than", "that",
   "the", "their", "them", "themselves", "then", "thence", "there",
   "thereafter", "thereby", "therefore", "therein", "thereupon", "these",
   "they", "thick", "thin", "third", "this", "those", "though", "three",
   "through", "throughout", "thru", "thus", "to", "together", "too", "top",
   "toward", "towards", "twelve", "twenty", "two", "un", "under", "until",
   "up", "upon", "us", "very", "via", "was", "we", "well", "were", "what",
   "whatever", "when", "whence", "whenever", "where", "whereafter",
   "whereas", "whereby", "wherein", "whereupon", "wherever", "whether",
   "which", "while", "whither", "who", "whoever", "whole", "whom", "whose",
   "why", "will", "with", "within", "without", "would", "yet", "you",
   "your", "yours", "yourself", "yourselves"]

/-- Tokens of one document: the default token pattern `\w\w+` applied to
the preprocessed text (words of length at least 2). -/
def docTokens (t : Option String) : List String :=
  ((wordsAux [] (preprocessText t).data).map (fun w => (⟨w⟩ : String))).filter
    (fun w => 2 ≤ w.data.length)

/-- The n-grams (unigrams and bigrams, `ngram_range=(1,2)`) of one
document after stop-word removal. -/
def docNgrams (t : Option String) : List String :=
  let toks := (docTokens t).filter (fun w => !(stopWords.contains w))
  toks ++ toks.zipWith (fun a b => a ++ " " ++ b) toks.tail

/-- Document frequency of a term across the tokenised corpus. -/
def dfCount (docs : List (List String)) (t : String) : Nat :=
  (docs.filter (fun d => d.contains t)).length

/-- Corpus term frequency of a term (used by the `max_features` cut). -/
def tfCount (docs : List (List String)) (t : String) : Nat :=
  (docs.map (fun d => d.count t)).sum

/-- The fitted vocabulary: candidate n-grams in alphabetical order, kept
when `2 ≤ df` (`min_df=2`) and `df ≤ 0.8·n` (`max_df=0.8`, terms in
strictly more than 80% of documents are discarded), then cut to the
`maxFeatures` terms of highest corpus term frequency. -/
def tfidfVocabulary (maxFeatures : Nat) (texts : List (Option String)) : List String :=
  let docs := texts.map docNgrams
  let n := texts.length
  let cands := List.insertionSort (fun a b : String => strLeB a b = true)
    (uniqueFirst docs.flatten)
  let kept := cands.filter (fun t => decide (2 ≤ dfCount docs t ∧ 5 * dfCount docs t ≤ 4 * n))
  if kept.length ≤ maxFeatures then kept
  else (@List.insertionSort String (fun a b => tfCount docs b ≤ tfCount docs a)
    (fun _ _ => Nat.decLe _ _) kept).take maxFeatures

/-- A keyword together with its weight. -/
abbrev KScore := String × ℚ

/-- `ThematicAnalyzer.extract_keywords_tfidf`.  The mean TF-IDF weight of
each vocabulary term involves floating-point linear algebra and a
logarithm, so it is abstracted as the `score` parameter; the keyword list
is the fitted vocabulary sorted by descending score.  When the vocabulary
is empty the library raises, the repository code catches the exception
and returns `[]`. -/
def extractKeywordsTfidf (score : String → ℚ) (maxFeatures : Nat)
    (texts : List (Option String)) : List KScore :=
  let v := tfidfVocabulary maxFeatures texts
  if v.isEmpty then []
  else List.insertionSort (fun a b : KScore => b.2 ≤ a.2) (v.map (fun w => (w, score w)))

/-- Blank-text test `pd.isna(text) or text == ''`. -/
def isBlankT (t : Option String) : Bool :=
  match t with
  | none => true
  | some s => s == ""

/-- The string carried by a text value (`str(text)` on present values). -/
def strOf : Option String → String
  | none => ""
  | some s => s

/-- `ThematicAnalyzer.extract_keywords_spacy`.  Modelled from the spec:
the spaCy model is an external collaborator; `nlp` is `none` when the
model failed to load (the method then returns `[]`) and otherwise gives
the filtered lemmas of one text.  Lemma frequencies are counted over the
whole corpus and the `topN` most common lemmas are returned with their
counts as scores. -/
def extractKeywordsSpacy (nlp : Option (String → List String)) (topN : Nat)
    (texts : List (Option String)) : List KScore :=
  match nlp with
  | none => []
  | some f =>
    let allk := texts.flatMap (fun t => if isBlankT t then [] else f (strOf t))
    ((@List.insertionSort String (fun a b => allk.count b ≤ allk.count a)
        (fun _ _ => Nat.decLe _ _) (uniqueFirst allk)).take topN).map
      (fun w => (w, (allk.count w : ℚ)))

/-! ## `ThematicAnalyzer.identify_themes` -/

/-- The fixed theme taxonomy with its seed-term lists, in declaration
order (`theme_patterns` in the source). -/
def themePatterns : List (String × List String) :=
  [("Account Access Issues",
    ["login", "access", "password", "authentication", "authorization",
     "offline", "connection", "network", "error", "failed", "blocked",
     "uninstall", "device", "register", "activate"]),
   ("Transaction Performance",
    ["transfer", "payment", "transaction", "slow", "fast", "speed",
     "delay", "timeout", "processing", "complete", "success", "fail",
     "wallet", "send", "receive", "money"]),
   ("User Interface & Experience",
    ["ui", "interface", "design", "layout", "user", "friendly",
     "easy", "simple", "complex", "confusing", "navigation",
     "screen", "button", "feature", "functionality"]),
   ("App Reliability & Bugs",
    ["crash", "bug", "error", "issue", "problem", "glitch",
     "freeze", "hang", "stuck", "loading", "spinning", "down",
     "unreliable", "broken", "not work", "doesn\x27t work"]),
   ("Customer Support",
    ["support", "help", "service", "contact", "branch", "visit",
     "assistance", "response", "complaint", "feedback"]),
   ("Security & Privacy",
    ["security", "safe", "secure", "privacy", "data", "protection",
     "screenshot", "restriction", "policy", "authorization"]),
   ("Feature Requests",
    ["feature", "request", "add", "need", "want", "missing",
     "suggestion", "improve", "enhance", "wish", "would like",
     "should have", "could have", "multiple account"])]

/-- A theme mapping: theme name to its bound (keyword, weight) list. -/
abbrev ThemeMap := List (String × List KScore)

/-- Lookup in `keyword_dict = {kw.lower(): score for kw, score in keywords}`
(a later duplicate lowercased key overwrites an earlier one). -/
def keywordLookup (kwds : List KScore) (k : String) : Option ℚ :=
  ((kwds.filter (fun p => lowerStr p.1 == k)).getLast?).map (fun p => p.2)

/-- The lowercased keyword strings (the keys of `keyword_dict`). -/
def lowKeys (kwds : List KScore) : List String := kwds.map (fun p => lowerStr p.1)

/-- One keyword of the partial-match loop of `identify_themes`: if the
(lowered) pattern and `kw.lower()` contain one another in either
direction and `kw.lower()` is not yet assigned, bind it to the current
theme and mark it assigned. -/
def partialStep (patL : String) (st : List KScore × List String) (p : KScore) :
    List KScore × List String :=
  let kl := lowerStr p.1
  if (substrB patL kl || substrB kl patL) && !(st.2.contains kl) then
    (st.1 ++ [(kl, p.2)], kl :: st.2)
  else st

/-- The partial-match loop of `identify_themes` over all keywords. -/
def procPartial (kwds : List KScore) (patL : String)
    (st : List KScore × List String) : List KScore × List String :=
  kwds.foldl (partialStep patL) st

/-- The exact-match branch of `identify_themes` against `keyword_dict`. -/
def exactStep (kwds : List KScore) (patL : String)
    (st : List KScore × List String) : List KScore × List String :=
  match keywordLookup kwds patL with
  | some sc => if st.2.contains patL then st else (st.1 ++ [(patL, sc)], patL :: st.2)
  | none => st

/-- One seed pattern of `identify_themes`: the exact-match branch, then
the partial-match loop. -/
def procPattern (kwds : List KScore) (pat : String)
    (st : List KScore × List String) : List KScore × List String :=
  procPartial kwds (lowerStr pat) (exactStep kwds (lowerStr pat) st)

/-- One theme of `identify_themes`: start the theme with an empty bound
list, scan its seed patterns in order, and append the finished entry. -/
def procTheme (kwds : List KScore) (st : ThemeMap × List String)
    (tp : String × List String) : ThemeMap × List String :=
  let r := tp.2.foldl (fun s pat => procPattern kwds pat s) (([] : List KScore), st.2)
  (st.1 ++ [(tp.1, r.1)], r.2)

/-- `ThematicAnalyzer.identify_themes`: bind keywords to themes in
taxonomy order with a shared `assigned_keywords` set, drop themes with no
bound keywords, and sort each theme's bound list by descending weight. -/
def identifyThemes (keywords : List KScore) (bankName : String) : ThemeMap :=
  let st := themePatterns.foldl (procTheme keywords) (([] : ThemeMap), ([] : List String))
  (st.1.filter (fun p => !p.2.isEmpty)).map
    (fun p => (p.1, List.insertionSort (fun a b : KScore => b.2 ≤ a.2) p.2))

/-- One theme of the matching loop of `assign_theme_to_review`: the theme
name is appended when any of its bound keywords occurs in the lowercased
review text (the `break` takes the first matching keyword only, so only
membership matters). -/
def matchStep (rl : String) (acc : List String) (p : String × List KScore) : List String :=
  if p.2.any (fun kp => substrB kp.1 rl) then acc ++ [p.1] else acc

/-- `ThematicAnalyzer.assign_theme_to_review`: blank text yields no
matches; otherwise a theme matches when any of its bound keywords occurs
in the lowercased review text, and an empty match list becomes
`['Other']`. -/
def assignThemeToReview (reviewText : Option String) (tm : ThemeMap) : List String :=
  if isBlankT reviewText then []
  else
    let rl := lowerStr (strOf reviewText)
    let matched := tm.foldl (matchStep rl) []
    if matched.isEmpty then ["Other"] else matched

/-! ## `analyze_themes_by_bank` and `assign_themes_to_reviews` -/

/-- One dataframe row: the `bank` and `review` columns, the `themes`
column written by the tagging step, and the remaining columns as an
association list. -/
structure Row where
  bank : String
  review : Option String
  themes : String
  rest : List (String × String)
deriving DecidableEq

/-- `'; '.join(matched_themes) if matched_themes else 'Other'`. -/
def joinOr (ts : List String) : String :=
  if ts.isEmpty then "Other" else joinStrs "; " ts

/-- `analyze_themes_by_bank`: for each distinct bank (in order of
appearance), extract keywords from that bank's reviews by TF-IDF with
`max_features=100`, fall back to the spaCy extractor when that yields
nothing, and bind the keywords to themes. -/
def analyzeThemesByBank (score : String → ℚ) (nlp : Option (String → List String))
    (df : List Row) : List (String × ThemeMap) :=
  (uniqueFirst (df.map (fun r => r.bank))).map (fun bank =>
    let reviews := (df.filter (fun r => r.bank == bank)).map (fun r => r.review)
    let kwds := extractKeywordsTfidf score 100 reviews
    let kwds := if kwds.isEmpty then extractKeywordsSpacy nlp 100 reviews else kwds
    (bank, identifyThemes kwds bank))

/-- The per-row update of `assign_themes_to_reviews` for one bank's
entry: rows of that bank get the joined matched themes. -/
def tagStep (p : String × ThemeMap) (r : Row) : Row :=
  if r.bank == p.1 then
    { r with themes := joinOr (assignThemeToReview r.review p.2) }
  else r

/-- `assign_themes_to_reviews`: on a copy of the dataframe, initialise
the `themes` column to `''`, then for each bank in the mapping overwrite
the rows of that bank with the semicolon-joined matched themes (or
`'Other'`). -/
def assignThemesToReviews (df : List Row) (bankThemes : List (String × ThemeMap)) :
    List Row :=
  bankThemes.foldl (fun rows p => rows.map (tagStep p))
    (df.map (fun r => { r with themes := "" }))

/-! ## `SentimentAnalyzer` (src/sentiment_analysis.py)

The DistilBERT pipeline and the VADER polarity scorer are external
pretrained models; they are modelled as the function fields `dbert`
(which may raise, hence `Except`) and `vader` (the compound score).  The
boolean fields mirror `use_distilbert`, `distilbert_pipeline is not None`
and `vader_analyzer is not None`. -/

structure SAnalyzer where
  useDistilbert : Bool
  hasDbert : Bool
  hasVader : Bool
  dbert : String → Except Unit (String × ℚ)
  vader : String → ℚ

/-- The VADER block of `analyze_text`: thresholds at `±0.05` on the
compound score; when no VADER analyzer is present, the final fallback
returns `('neutral', 0.0)`. -/
def vaderStep (a : SAnalyzer) (t : String) : String × ℚ :=
  if a.hasVader then
    let c := a.vader t
    if 1/20 ≤ c then ("positive", c)
    else if c ≤ -(1/20) then ("negative", |c|)
    else ("neutral", |c|)
  else ("neutral", 0)

/-- Blank test of `analyze_text`:
`not text or pd.isna(text) or str(text).strip() == ''`. -/
def isBlankSent (t : Option String) : Bool :=
  match t with
  | none => true
  | some s => s == "" || trimStr s == ""

/-- `SentimentAnalyzer.analyze_text`: blank text short-circuits to
`('neutral', 0.0)`; otherwise the DistilBERT branch maps the model label
to positive/negative (else neutral at score 0.5), and on a model
exception the analyzer flips to the VADER path permanently.  Returns the
result together with the (possibly mutated) analyzer. -/
def analyzeText (a : SAnalyzer) (text : Option String) : (String × ℚ) × SAnalyzer :=
  if isBlankSent text then (("neutral", 0), a)
  else
    let t := trimStr (strOf text)
    if a.useDistilbert && a.hasDbert then
      match a.dbert (takeStr 512 t) with
      | .ok (lab, sc) =>
        let l := lowerStr lab
        if l == "positive" then (("positive", sc), a)
        else if l == "negative" then (("negative", sc), a)
        else (("neutral", 1/2), a)
      | .error _ =>
        let a1 := { a with useDistilbert := false }
        (vaderStep a1 t, a1)
    else (vaderStep a t, a)

/-! ## `aggregate_sentiment_by_bank_and_rating` -/

/-- One row of the sentiment-annotated dataframe. -/
structure SRow where
  bank : String
  rating : ℚ
  label : String
  score : ℚ
deriving DecidableEq

/-- One aggregated record. -/
structure AggRow where
  bank : String
  rating : ℚ
  reviewCount : Nat
  meanScore : ℚ
  positivePct : ℚ
  negativePct : ℚ
  neutralPct : ℚ
deriving DecidableEq

/-- `aggregate_sentiment_by_bank_and_rating`: for each bank in order of
appearance and each of its ratings in ascending order, emit the bucket's
review count, mean sentiment score and label percentages. -/
def aggregateSentiment (df : List SRow) : List AggRow :=
  (uniqueFirst (df.map (fun r => r.bank))).flatMap (fun b =>
    let bdf := df.filter (fun r => r.bank == b)
    (List.insertionSort (fun a b : ℚ => a ≤ b)
        (uniqueFirst (bdf.map (fun r => r.rating)))).filterMap (fun rt =>
      let rdf := bdf.filter (fun r => r.rating == rt)
      if 0 < rdf.length then
        some { bank := b, rating := rt, reviewCount := rdf.length,
               meanScore := (rdf.map (fun r => r.score)).sum / rdf.length,
               positivePct := ((rdf.filter (fun r => r.label == "positive")).length : ℚ)
                 / rdf.length * 100,
               negativePct := ((rdf.filter (fun r => r.label == "negative")).length : ℚ)
                 / rdf.length * 100,
               neutralPct := ((rdf.filter (fun r => r.label == "neutral")).length : ℚ)
                 / rdf.length * 100 }
      else none))

/-- The guard at the top of `aggregate_sentiment_by_bank_and_rating`:
with a missing `sentiment_score`/`sentiment_label` column the function
returns `None` instead of aggregating. -/
def aggregateSentimentChecked (hasScoreCol hasLabelCol : Bool) (df : List SRow) :
    Option (List AggRow) :=
  if !hasScoreCol || !hasLabelCol then none else some (aggregateSentiment df)

/-! ## `run_full_pipeline` (src/analysis_pipeline.py)

The pipeline reads a CSV, runs sentiment analysis, thematic analysis and
writes outputs.  Python exceptions are modelled with `Except`: the input
file is either missing (`FileNotFoundError`), unparseable
(`pandas.errors.ParserError`), or a table with a column list and rows.
Only the `FileNotFoundError` of the read step is caught (returning the
`None` sentinel, modelled as `Except.ok none`); missing-column accesses
raise `KeyError`.  Printing and CSV writing are side effects with no
bearing on the returned value and are omitted. -/

inductive PipeErr where
  | fileNotFound
  | parserError
  | keyError (col : String)
deriving DecidableEq

inductive InputFile where
  | missing
  | malformed
  | csv (cols : List String) (rows : List Row)

/-- `pd.read_csv`: raises `FileNotFoundError` on a missing file and
`ParserError` on a malformed one. -/
def readCsv : InputFile → Except PipeErr (List String × List Row)
  | .missing => .error .fileNotFound
  | .malformed => .error .parserError
  | .csv cols rows => .ok (cols, rows)

/-- Column access `df[c]`: `KeyError` when the column is absent. -/
def requireCol (cols : List String) (c : String) : Except PipeErr Unit :=
  if c ∈ cols then .ok () else .error (.keyError c)

/-- `run_full_pipeline`: step 1 loads the CSV inside a
`try/except FileNotFoundError` that returns `None`; every later step
runs unguarded.  Step 2 reads `df['review']` and concatenates the
sentiment frame (which has no columns when there are no rows), then
reads `df['sentiment_label']` for the coverage metric; step 3 reads
`df['bank']` inside `analyze_themes_by_bank` and tags the reviews;
step 4 assembles the output frame. -/
def runFullPipeline (sa : SAnalyzer) (score : String → ℚ)
    (nlp : Option (String → List String)) (input : InputFile) :
    Except PipeErr (Option (List Row)) :=
  match readCsv input with
  | .error .fileNotFound => .ok none
  | .error e => .error e
  | .ok (cols0, rows) => do
    let cols1 := cols0 ++ ["review_id"]
    let _ ← requireCol cols1 "review"
    let _ := rows.map (fun r => (analyzeText sa r.review).1)
    let cols2 := cols1 ++ (if rows.isEmpty then [] else ["sentiment_label", "sentiment_score"])
    let _ ← requireCol cols2 "sentiment_label"
    let _ ← requireCol cols2 "bank"
    let bt := analyzeThemesByBank score nlp rows
    let out := assignThemesToReviews rows bt
    .ok (some out)

/-- `main`: calls the pipeline and reports success only when the result
is not the `None` sentinel; an uncaught exception still propagates. -/
def mainReportsSuccess (sa : SAnalyzer) (score : String → ℚ)
    (nlp : Option (String → List String)) (input : InputFile) :
    Except PipeErr Bool := do
  let r ← runFullPipeline sa score nlp input
  pure r.isSome

/-! ## Invariant predicates, derived state, and concrete witness data -/

/-- `patMatch p s`: the binding condition of `identify_themes` between a
seed pattern `p` (before lowering) and an assigned string `s` — the
lowered pattern and `s` contain one another in either direction (an exact
match is the special case `s = p.lower()`). -/
def patMatch (p s : String) : Prop :=
  substrB (lowerStr p) s = true ∨ substrB s (lowerStr p) = true

instance (p s : String) : Decidable (patMatch p s) := by
  unfold patMatch
  infer_instance

/-- Invariant of the per-theme state `(cur, assigned)` while scanning one
theme's seed patterns, relative to the assigned set `asg0` at the start
of the theme. -/
def ThemeInv (kwds : List KScore) (pats : List String) (asg0 : List String)
    (st : List KScore × List String) : Prop :=
  (∀ x ∈ asg0, x ∈ st.2) ∧
  (st.1.map Prod.fst).Nodup ∧
  (∀ s ∈ st.1.map Prod.fst,
     s ∈ st.2 ∧ s ∉ asg0 ∧ s ∈ lowKeys kwds ∧ ∃ p ∈ pats, patMatch p s) ∧
  (∀ s ∈ st.2, s ∈ asg0 ∨ s ∈ st.1.map Prod.fst)

/-- Invariant of the `identify_themes` outer fold after processing the
taxonomy prefix `prev`: theme names appear in taxonomy order, every
string is bound at most once overall (`nodupFlat`), the assigned set is
exactly the set of bound strings (`asgIff`), every bound string is a
lowered keyword matching a seed of its own theme (`matched`), no bound
string matches any seed of an earlier theme (`earliest`), and every
lowered keyword matching a seed of a processed theme has been assigned
(`cover`). -/
structure ThemesInv (kwds : List KScore) (prev : List (String × List String))
    (st : ThemeMap × List String) : Prop where
  names : st.1.map Prod.fst = prev.map Prod.fst
  nodupFlat : ((st.1.map (fun p => p.2.map Prod.fst)).flatten).Nodup
  asgIff : ∀ s, s ∈ st.2 ↔ s ∈ (st.1.map (fun p => p.2.map Prod.fst)).flatten
  matched : ∀ (k : Nat) (hk : k < st.1.length) (hk2 : k < prev.length),
    ∀ s ∈ (st.1[k]).2.map Prod.fst,
      (∃ p ∈ (prev[k]).2, patMatch p s) ∧ s ∈ lowKeys kwds
  earliest : ∀ (k : Nat) (hk : k < st.1.length), ∀ s ∈ (st.1[k]).2.map Prod.fst,
    ∀ (j : Nat) (hj : j < prev.length), j < k → ¬ ∃ p ∈ (prev[j]).2, patMatch p s
  cover : ∀ tp ∈ prev, ∀ kw ∈ kwds, (∃ p ∈ tp.2, patMatch p (lowerStr kw.1)) →
    lowerStr kw.1 ∈ st.2

instance : IsTotal KScore (fun a b : KScore => b.2 ≤ a.2) :=
  ⟨fun a b => le_total b.2 a.2⟩

instance : IsTrans KScore (fun a b : KScore => b.2 ≤ a.2) :=
  ⟨fun _ _ _ h1 h2 => le_trans h2 h1⟩

/-- The raw accumulator of the `identify_themes` fold. -/
def themesAcc (kwds : List KScore) : ThemeMap :=
  (themePatterns.foldl (procTheme kwds) (([] : ThemeMap), ([] : List String))).1

/-- The bound-string chunks of the fold accumulator. -/
def themesChunks (kwds : List KScore) : List (List String) :=
  (themesAcc kwds).map (fun p => p.2.map Prod.fst)

/-- The whole tagging pass applied to a single row. -/
def tagRow (bankThemes : List (String × ThemeMap)) (r : Row) : Row :=
  bankThemes.foldl (fun x p => tagStep p x) { r with themes := "" }

/-- The entry of `bank_themes` that a row of bank `b` ends up tagged
with: a Python `dict` iteration visits each key once, but in this list
model a later duplicate key overwrites an earlier one. -/
def lastTM (bt : List (String × ThemeMap)) (b : String) : Option ThemeMap :=
  match bt with
  | [] => none
  | p :: rest =>
    match lastTM rest b with
    | some tm => some tm
    | none => if p.1 == b then some p.2 else none

/-- Concrete one-row dataframe used by the C10 witness. -/
def rowW10 : Row :=
  { bank := "BOA", review := some "slow app", themes := "old", rest := [("rating", "2")] }

/-- Concrete bank-themes mapping used by the C10 witness. -/
def btW10 : List (String × ThemeMap) :=
  [("BOA", [("Transaction Performance", [(("slow" : String), (1 : ℚ))])])]

/-- Concrete analyzer used by the C7 witness: the classifier returns
`POSITIVE` at confidence 9/10. -/
def saW7 : SAnalyzer :=
  { useDistilbert := true, hasDbert := true, hasVader := false,
    dbert := fun _ => .ok ("POSITIVE", 9/10), vader := fun _ => 0 }

/-- The synthetic 10-review dataframe of the spec: one bank, 5 positive
and 5 negative reviews, ratings split 1, 2, 4, 5, 5 in each half. -/
def df10W : List SRow :=
  [{ bank := "CBE", rating := 1, label := "positive", score := 9/10 },
   { bank := "CBE", rating := 2, label := "positive", score := 8/10 },
   { bank := "CBE", rating := 4, label := "positive", score := 7/10 },
   { bank := "CBE", rating := 5, label := "positive", score := 9/10 },
   { bank := "CBE", rating := 5, label := "positive", score := 1 },
   { bank := "CBE", rating := 1, label := "negative", score := 9/10 },
   { bank := "CBE", rating := 2, label := "negative", score := 8/10 },
   { bank := "CBE", rating := 4, label := "negative", score := 7/10 },
   { bank := "CBE", rating := 5, label := "negative", score := 9/10 },
   { bank := "CBE", rating := 5, label := "negative", score := 1 }]

/-- Concrete analyzer used for the C5 pipeline runs (no models loaded;
`analyze_text` then always answers neutral). -/
def saW5 : SAnalyzer :=
  { useDistilbert := false, hasDbert := false, hasVader := false,
    dbert := fun _ => .error (), vader := fun _ => 0 }

/-- Concrete one-row table used for the C5 runs. -/
def rowW5 : Row :=
  { bank := "CBE", review := some "great app", themes := "", rest := [] }

/-- A corpus in which every document contains the word `crash`: the
counterexample input for C2. -/
def corpusC2 : List (Option String) :=
  [some "crash aa money login",
   some "money crash bb login",
   some "money login crash cc",
   some "money login dd crash",
   some "ee crash zz qq"]


/-! ## Basic lemmas about the string primitives -/

theorem charOfNat_toNat (n : Nat) (h : n < 55296) : (Char.ofNat n).toNat = n := by
  have hv : n.isValidChar := Or.inl h
  simp only [Char.ofNat, hv, dif_pos, Char.ofNatAux, Char.toNat, UInt32.toNat]
  exact BitVec.toNat_ofNatLt n _

theorem lowerChar_lowerChar (c : Char) : lowerChar (lowerChar c) = lowerChar c := by
  unfold lowerChar
  by_cases h : 65 ≤ c.toNat ∧ c.toNat ≤ 90
  · rw [if_pos h]
    have ht : (Char.ofNat (c.toNat + 32)).toNat = c.toNat + 32 :=
      charOfNat_toNat _ (by omega)
    rw [if_neg]
    rw [ht]; omega
  · rw [if_neg h, if_neg h]

theorem lowerStr_eq_self {s : String} (h : ∀ c ∈ s.data, lowerChar c = c) :
    lowerStr s = s := by
  apply String.ext
  show s.data.map lowerChar = s.data
  calc s.data.map lowerChar = s.data.map id := List.map_congr_left h
  _ = s.data := List.map_id s.data

theorem leadMatch_refl : ∀ l : List Char, leadMatch l l = true := by
  intro l
  induction l with
  | nil => rfl
  | cons a as ih => simp [leadMatch, ih]

theorem subChars_of_lead {n h : List Char} (hl : leadMatch n h = true) :
    subChars n h = true := by
  cases h with
  | nil => simpa [subChars] using hl
  | cons b bs => simp [subChars, hl]

theorem substrB_refl (s : String) : substrB s s = true :=
  subChars_of_lead (leadMatch_refl s.data)

theorem joinStrs_ne_empty (sep : String) :
    ∀ ts : List String, ts ≠ [] → (∀ x ∈ ts, x ≠ "") → joinStrs sep ts ≠ "" := by
  intro ts
  match ts with
  | [] => intro h; exact absurd rfl h
  | [a] =>
    intro _ hx
    simpa [joinStrs] using hx a (by simp)
  | a :: b :: rest =>
    intro _ hx heq
    have heq2 : a ++ sep ++ joinStrs sep (b :: rest) = "" := heq
    have hd := congrArg String.data heq2
    rw [String.data_append, String.data_append] at hd
    have : a.data = [] := (List.append_eq_nil.mp ((List.append_eq_nil.mp hd).1)).1
    exact hx a (by simp) (String.ext this)

theorem joinOr_ne_empty {ts : List String} (h : ∀ x ∈ ts, x ≠ "") :
    joinOr ts ≠ "" := by
  unfold joinOr
  by_cases he : ts.isEmpty
  · rw [if_pos he]; decide
  · rw [if_neg he]
    exact joinStrs_ne_empty "; " ts (by simpa [List.isEmpty_iff] using he) h

theorem mem_uniqueFirstAux [DecidableEq α] :
    ∀ (l : List α) (seen : List α) (x : α), x ∈ l →
      x ∈ seen ∨ x ∈ uniqueFirstAux seen l := by
  intro l
  induction l with
  | nil => intro seen x hx; cases hx
  | cons a as ih =>
    intro seen x hx
    by_cases ha : a ∈ seen
    · rw [uniqueFirstAux, if_pos ha]
      rcases List.mem_cons.mp hx with rfl | hx'
      · exact Or.inl ha
      · exact ih seen x hx'
    · rw [uniqueFirstAux, if_neg ha]
      rcases List.mem_cons.mp hx with rfl | hx'
      · exact Or.inr (by simp)
      · rcases ih (a :: seen) x hx' with hs | hr
        · rcases List.mem_cons.mp hs with rfl | hs'
          · exact Or.inr (by simp)
          · exact Or.inl hs'
        · exact Or.inr (List.mem_cons_of_mem a hr)

theorem mem_uniqueFirst [DecidableEq α] {l : List α} {x : α} (hx : x ∈ l) :
    x ∈ uniqueFirst l := by
  rcases mem_uniqueFirstAux l [] x hx with hs | hr
  · cases hs
  · exact hr

/-! ## Invariants of the theme-binding fold -/

theorem keywordLookup_some_mem {kwds : List KScore} {k : String} {sc : ℚ}
    (h : keywordLookup kwds k = some sc) : k ∈ lowKeys kwds := by
  unfold keywordLookup at h
  rcases hg : (kwds.filter (fun p => lowerStr p.1 == k)).getLast? with _ | q
  · rw [hg] at h; cases h
  · have hq : q ∈ kwds.filter (fun p => lowerStr p.1 == k) := List.mem_of_mem_getLast? hg
    have := List.mem_filter.mp hq
    exact List.mem_map.mpr ⟨q, this.1, by simpa using this.2⟩

theorem keywordLookup_isSome {kwds : List KScore} {k : String}
    (h : k ∈ lowKeys kwds) : ∃ sc, keywordLookup kwds k = some sc := by
  rcases List.mem_map.mp h with ⟨q, hq, rfl⟩
  have hne : kwds.filter (fun p => lowerStr p.1 == lowerStr q.1) ≠ [] := by
    intro hf
    have : q ∈ kwds.filter (fun p => lowerStr p.1 == lowerStr q.1) :=
      List.mem_filter.mpr ⟨hq, by simp⟩
    rw [hf] at this; cases this
  rcases List.getLast?_isSome.mpr hne |> Option.isSome_iff_exists.mp with ⟨p, hp⟩
  exact ⟨p.2, by unfold keywordLookup; rw [hp]; rfl⟩

theorem themeInv_init (kwds : List KScore) (pats : List String) (asg0 : List String) :
    ThemeInv kwds pats asg0 ([], asg0) := by
  refine ⟨fun x hx => hx, by simp, by simp, fun s hs => Or.inl hs⟩

theorem themeInv_bind {kwds : List KScore} {pats : List String} {asg0 : List String}
    {st : List KScore × List String} (h : ThemeInv kwds pats asg0 st)
    {kl : String} {sc : ℚ} (hkl : kl ∉ st.2) (hkeys : kl ∈ lowKeys kwds)
    (hmatch : ∃ p ∈ pats, patMatch p kl) :
    ThemeInv kwds pats asg0 (st.1 ++ [(kl, sc)], kl :: st.2) := by
  obtain ⟨h1, h2, h3, h4⟩ := h
  have hklcur : kl ∉ st.1.map Prod.fst := fun hm => hkl (h3 kl hm).1
  refine ⟨?_, ?_, ?_, ?_⟩
  · intro x hx; exact List.mem_cons_of_mem _ (h1 x hx)
  · rw [List.map_append]
    rw [List.nodup_append]
    exact ⟨h2, by simp, by simpa [List.disjoint_right] using hklcur⟩
  · intro s hs
    rw [List.map_append] at hs
    rcases List.mem_append.mp hs with hs | hs
    · obtain ⟨a1, a2, a3, a4⟩ := h3 s hs
      exact ⟨List.mem_cons_of_mem _ a1, a2, a3, a4⟩
    · have : s = kl := by simpa using hs
      subst this
      exact ⟨by simp, fun ha => hkl (h1 s ha), hkeys, hmatch⟩
  · intro s hs
    rcases List.mem_cons.mp hs with rfl | hs
    · right; rw [List.map_append]; simp
    · rcases h4 s hs with ha | hc
      · exact Or.inl ha
      · right; rw [List.map_append]; exact List.mem_append_left _ hc

theorem themeInv_partialStep {kwds : List KScore} {pats : List String}
    {asg0 : List String} {patL : String}
    (HP : ∀ s, (substrB patL s || substrB s patL) = true → ∃ p ∈ pats, patMatch p s)
    {st : List KScore × List String} (h : ThemeInv kwds pats asg0 st)
    {p : KScore} (hpk : p ∈ kwds) :
    ThemeInv kwds pats asg0 (partialStep patL st p) := by
  unfold partialStep
  set kl := lowerStr p.1 with hkl
  by_cases hc : (substrB patL kl || substrB kl patL) = true ∧ st.2.contains kl = false
  · have hnm : kl ∉ st.2 := by
      intro hm
      have hct : st.2.contains kl = true := by simpa using hm
      have hcf := hc.2
      rw [hct] at hcf
      simp at hcf
    rw [if_pos (by simp [hc.1, hnm])]
    exact themeInv_bind h hnm (List.mem_map.mpr ⟨p, hpk, rfl⟩) (HP kl hc.1)
  · rw [if_neg ?_]
    · exact h
    · intro hcond
      rcases Bool.and_eq_true_iff.mp hcond with ⟨c1, c2⟩
      exact hc ⟨c1, by simpa using c2⟩

theorem themeInv_partialFold {kwds : List KScore} {pats : List String}
    {asg0 : List String} {patL : String}
    (HP : ∀ s, (substrB patL s || substrB s patL) = true → ∃ p ∈ pats, patMatch p s) :
    ∀ (l : List KScore), (∀ p ∈ l, p ∈ kwds) →
      ∀ st, ThemeInv kwds pats asg0 st →
        ThemeInv kwds pats asg0 (l.foldl (partialStep patL) st) := by
  intro l
  induction l with
  | nil => intro _ st h; exact h
  | cons p l ih =>
    intro hl st h
    rw [List.foldl_cons]
    exact ih (fun q hq => hl q (List.mem_cons_of_mem _ hq)) _
      (themeInv_partialStep HP h (hl p (by simp)))

theorem themeInv_procPartial {kwds : List KScore} {pats : List String}
    {asg0 : List String} {patL : String}
    (HP : ∀ s, (substrB patL s || substrB s patL) = true → ∃ p ∈ pats, patMatch p s)
    {st : List KScore × List String} (h : ThemeInv kwds pats asg0 st) :
    ThemeInv kwds pats asg0 (procPartial kwds patL st) :=
  themeInv_partialFold HP kwds (fun _ hq => hq) st h

theorem themeInv_exactStep {kwds : List KScore} {pats : List String}
    {asg0 : List String} {pat : String} (hp : pat ∈ pats)
    {st : List KScore × List String} (h : ThemeInv kwds pats asg0 st) :
    ThemeInv kwds pats asg0 (exactStep kwds (lowerStr pat) st) := by
  unfold exactStep
  rcases hk : keywordLookup kwds (lowerStr pat) with _ | sc
  · exact h
  · dsimp only
    by_cases hc : st.2.contains (lowerStr pat) = true
    · rw [if_pos hc]; exact h
    · rw [if_neg hc]
      have hnm : lowerStr pat ∉ st.2 := by
        have hcf : st.2.contains (lowerStr pat) = false := by
          cases hcc : st.2.contains (lowerStr pat)
          · rfl
          · exact absurd hcc hc
        simpa using hcf
      exact themeInv_bind h hnm (keywordLookup_some_mem hk)
        ⟨pat, hp, Or.inl (substrB_refl _)⟩

theorem themeInv_procPattern {kwds : List KScore} {pats : List String}
    {asg0 : List String} {pat : String} (hp : pat ∈ pats)
    {st : List KScore × List String} (h : ThemeInv kwds pats asg0 st) :
    ThemeInv kwds pats asg0 (procPattern kwds pat st) := by
  unfold procPattern
  refine themeInv_procPartial ?_ (themeInv_exactStep hp h)
  intro s hs
  refine ⟨pat, hp, ?_⟩
  rcases Bool.or_eq_true_iff.mp hs with h1 | h1
  · exact Or.inl h1
  · exact Or.inr h1

theorem themeInv_patsFold {kwds : List KScore} {pats : List String} {asg0 : List String} :
    ∀ (l : List String), (∀ p ∈ l, p ∈ pats) →
      ∀ st, ThemeInv kwds pats asg0 st →
        ThemeInv kwds pats asg0 (l.foldl (fun s pat => procPattern kwds pat s) st) := by
  intro l
  induction l with
  | nil => intro _ st h; exact h
  | cons p l ih =>
    intro hl st h
    rw [List.foldl_cons]
    exact ih (fun q hq => hl q (List.mem_cons_of_mem _ hq)) _
      (themeInv_procPattern (hl p (by simp)) h)

/-! ## Monotonicity, prefix and coverage lemmas for the binding fold -/

theorem partialStep_asg_mono {patL : String} {st : List KScore × List String}
    {p : KScore} {x : String} (hx : x ∈ st.2) : x ∈ (partialStep patL st p).2 := by
  unfold partialStep
  dsimp only
  split
  · exact List.mem_cons_of_mem _ hx
  · exact hx

theorem partialFold_asg_mono {patL : String} :
    ∀ (l : List KScore) (st : List KScore × List String) (x : String),
      x ∈ st.2 → x ∈ (l.foldl (partialStep patL) st).2 := by
  intro l
  induction l with
  | nil => intro st x hx; exact hx
  | cons p l ih =>
    intro st x hx
    rw [List.foldl_cons]
    exact ih _ x (partialStep_asg_mono hx)

theorem exactStep_asg_mono {kwds : List KScore} {patL : String}
    {st : List KScore × List String} {x : String} (hx : x ∈ st.2) :
    x ∈ (exactStep kwds patL st).2 := by
  unfold exactStep
  rcases keywordLookup kwds patL with _ | sc
  · exact hx
  · dsimp only
    split
    · exact hx
    · exact List.mem_cons_of_mem _ hx

theorem procPattern_asg_mono {kwds : List KScore} {pat : String}
    {st : List KScore × List String} {x : String} (hx : x ∈ st.2) :
    x ∈ (procPattern kwds pat st).2 :=
  partialFold_asg_mono kwds _ x (exactStep_asg_mono hx)

theorem patsFold_asg_mono {kwds : List KScore} :
    ∀ (l : List String) (st : List KScore × List String) (x : String),
      x ∈ st.2 → x ∈ (l.foldl (fun s pat => procPattern kwds pat s) st).2 := by
  intro l
  induction l with
  | nil => intro st x hx; exact hx
  | cons p l ih =>
    intro st x hx
    rw [List.foldl_cons]
    exact ih _ x (procPattern_asg_mono hx)

theorem partialStep_cur {patL : String} (st : List KScore × List String) (p : KScore) :
    ∃ d, (partialStep patL st p).1 = st.1 ++ d := by
  unfold partialStep
  dsimp only
  split
  · exact ⟨[(lowerStr p.1, p.2)], rfl⟩
  · exact ⟨[], by simp⟩

theorem partialFold_cur {patL : String} :
    ∀ (l : List KScore) (st : List KScore × List String),
      ∃ d, (l.foldl (partialStep patL) st).1 = st.1 ++ d := by
  intro l
  induction l with
  | nil => intro st; exact ⟨[], by simp⟩
  | cons p l ih =>
    intro st
    rw [List.foldl_cons]
    rcases partialStep_cur st p with ⟨d1, hd1⟩
    rcases ih (partialStep patL st p) with ⟨d2, hd2⟩
    exact ⟨d1 ++ d2, by rw [hd2, hd1, List.append_assoc]⟩

theorem exactStep_cur {kwds : List KScore} {patL : String}
    (st : List KScore × List String) :
    ∃ d, (exactStep kwds patL st).1 = st.1 ++ d := by
  unfold exactStep
  rcases keywordLookup kwds patL with _ | sc
  · exact ⟨[], by simp⟩
  · dsimp only
    split
    · exact ⟨[], by simp⟩
    · exact ⟨[(patL, sc)], rfl⟩

theorem procPattern_cur {kwds : List KScore} {pat : String}
    (st : List KScore × List String) :
    ∃ d, (procPattern kwds pat st).1 = st.1 ++ d := by
  unfold procPattern procPartial
  rcases @exactStep_cur kwds (lowerStr pat) st with ⟨d1, hd1⟩
  rcases @partialFold_cur (lowerStr pat) kwds (exactStep kwds (lowerStr pat) st)
    with ⟨d2, hd2⟩
  exact ⟨d1 ++ d2, by rw [hd2, hd1, List.append_assoc]⟩

theorem patsFold_cur {kwds : List KScore} :
    ∀ (l : List String) (st : List KScore × List String),
      ∃ d, (l.foldl (fun s pat => procPattern kwds pat s) st).1 = st.1 ++ d := by
  intro l
  induction l with
  | nil => intro st; exact ⟨[], by simp⟩
  | cons p l ih =>
    intro st
    rw [List.foldl_cons]
    rcases @procPattern_cur kwds p st with ⟨d1, hd1⟩
    rcases ih (procPattern kwds p st) with ⟨d2, hd2⟩
    exact ⟨d1 ++ d2, by rw [hd2, hd1, List.append_assoc]⟩

theorem patsFold_cur_mem {kwds : List KScore} {l : List String}
    {st : List KScore × List String} {q : KScore} (hq : q ∈ st.1) :
    q ∈ (l.foldl (fun s pat => procPattern kwds pat s) st).1 := by
  rcases patsFold_cur l st with ⟨d, hd⟩
  rw [hd]
  exact List.mem_append_left _ hq

theorem themesFold_acc_mono {kwds : List KScore} :
    ∀ (l : List (String × List String)) (st : ThemeMap × List String)
      (q : String × List KScore), q ∈ st.1 → q ∈ (l.foldl (procTheme kwds) st).1 := by
  intro l
  induction l with
  | nil => intro st q hq; exact hq
  | cons tp l ih =>
    intro st q hq
    rw [List.foldl_cons]
    exact ih _ q (List.mem_append_left _ hq)

theorem partialFold_covers {patL : String} :
    ∀ (l : List KScore) (st : List KScore × List String) (p : KScore), p ∈ l →
      (substrB patL (lowerStr p.1) || substrB (lowerStr p.1) patL) = true →
      lowerStr p.1 ∈ (l.foldl (partialStep patL) st).2 := by
  intro l
  induction l with
  | nil => intro st p hp; cases hp
  | cons q l ih =>
    intro st p hp hm
    rw [List.foldl_cons]
    rcases List.mem_cons.mp hp with rfl | hp'
    · apply partialFold_asg_mono
      unfold partialStep
      dsimp only
      by_cases hc : (lowerStr p.1) ∈ st.2
      · split
        · exact List.mem_cons_of_mem _ hc
        · exact hc
      · rw [if_pos (by simp [hm, hc])]
        simp
    · exact ih _ p hp' hm

theorem procPattern_covers {kwds : List KScore} {pat : String}
    {st : List KScore × List String} {kw : KScore} (hkw : kw ∈ kwds)
    (hm : patMatch pat (lowerStr kw.1)) :
    lowerStr kw.1 ∈ (procPattern kwds pat st).2 := by
  unfold procPattern
  apply partialFold_covers kwds _ kw hkw
  rcases hm with h1 | h1
  · simp [h1]
  · simp [h1]

theorem patsFold_covers {kwds : List KScore} :
    ∀ (l : List String) (st : List KScore × List String) (pat : String), pat ∈ l →
      ∀ kw ∈ kwds, patMatch pat (lowerStr kw.1) →
        lowerStr kw.1 ∈ (l.foldl (fun s pat => procPattern kwds pat s) st).2 := by
  intro l
  induction l with
  | nil => intro st pat hp; cases hp
  | cons q l ih =>
    intro st pat hp kw hkw hm
    rw [List.foldl_cons]
    rcases List.mem_cons.mp hp with rfl | hp'
    · exact patsFold_asg_mono _ _ _ (procPattern_covers hkw hm)
    · exact ih _ pat hp' kw hkw hm

/-! ## The global invariant of the theme fold -/

theorem themesInv_init (kwds : List KScore) :
    ThemesInv kwds [] (([] : ThemeMap), ([] : List String)) := by
  refine ⟨rfl, by simp, by simp, ?_, ?_, ?_⟩
  · intro k hk; simp at hk
  · intro k hk; simp at hk
  · intro tp htp; cases htp

theorem themesInv_step {kwds : List KScore} {prev : List (String × List String)}
    {st : ThemeMap × List String} {tp : String × List String}
    (h : ThemesInv kwds prev st) :
    ThemesInv kwds (prev ++ [tp]) (procTheme kwds st tp) := by
  obtain ⟨hnames, hnodup, hasg, hmat, hearly, hcov⟩ := h
  have hlen : st.1.length = prev.length := by
    have := congrArg List.length hnames
    simpa using this
  have TI : ThemeInv kwds tp.2 st.2
      (tp.2.foldl (fun s pat => procPattern kwds pat s) (([] : List KScore), st.2)) :=
    themeInv_patsFold tp.2 (fun _ hq => hq) _ (themeInv_init kwds tp.2 st.2)
  obtain ⟨ti1, ti2, ti3, ti4⟩ := TI
  set inner := tp.2.foldl (fun s pat => procPattern kwds pat s)
    (([] : List KScore), st.2) with hinner
  show ThemesInv kwds (prev ++ [tp]) (st.1 ++ [(tp.1, inner.1)], inner.2)
  have hflat : ((st.1 ++ [(tp.1, inner.1)]).map (fun p => p.2.map Prod.fst)).flatten
      = (st.1.map (fun p => p.2.map Prod.fst)).flatten ++ inner.1.map Prod.fst := by
    rw [List.map_append, List.flatten_append]
    simp
  refine ⟨?_, ?_, ?_, ?_, ?_, ?_⟩
  · rw [List.map_append, List.map_append, hnames]; simp
  · rw [hflat]
    rw [List.nodup_append]
    refine ⟨hnodup, ti2, ?_⟩
    intro x hx hx'
    exact (ti3 x hx').2.1 ((hasg x).mpr hx)
  · intro s
    rw [hflat]
    constructor
    · intro hs
      rcases ti4 s hs with h1 | h1
      · exact List.mem_append_left _ ((hasg s).mp h1)
      · exact List.mem_append_right _ h1
    · intro hs
      rcases List.mem_append.mp hs with h1 | h1
      · exact ti1 s ((hasg s).mpr h1)
      · exact (ti3 s h1).1
  · intro k hk hk2 s hs
    rw [List.length_append] at hk
    simp only [List.length_append, List.length_singleton] at hk2
    by_cases hlt : k < st.1.length
    · rw [List.getElem_append_left hlt] at hs
      have hlt2 : k < prev.length := hlen ▸ hlt
      rw [List.getElem_append_left hlt2]
      exact hmat k hlt hlt2 s hs
    · have hke : k = st.1.length := by
        simp only [List.length_singleton] at hk; omega
      subst hke
      rw [List.getElem_append_right (Nat.le_refl _)] at hs
      simp only [Nat.sub_self, List.getElem_cons_zero] at hs
      have hke2 : st.1.length = prev.length := hlen
      rw [List.getElem_append_right (by omega)]
      obtain ⟨m1, m2, m3, m4⟩ := ti3 s hs
      refine ⟨?_, m3⟩
      simp only [hke2, Nat.sub_self, List.getElem_cons_zero]
      exact m4
  · intro k hk s hs j hj hjk
    rw [List.length_append] at hk
    simp only [List.length_append, List.length_singleton] at hj
    by_cases hlt : k < st.1.length
    · rw [List.getElem_append_left hlt] at hs
      have hj2 : j < prev.length := by omega
      rw [List.getElem_append_left hj2]
      exact hearly k hlt s hs j hj2 hjk
    · have hke : k = st.1.length := by
        simp only [List.length_singleton] at hk; omega
      subst hke
      rw [List.getElem_append_right (Nat.le_refl _)] at hs
      simp only [Nat.sub_self, List.getElem_cons_zero] at hs
      have hj2 : j < prev.length := by omega
      rw [List.getElem_append_left hj2]
      intro hex
      obtain ⟨m1, m2, m3, m4⟩ := ti3 s hs
      rcases List.mem_map.mp m3 with ⟨kw, hkw, hkws⟩
      have hkws2 : lowerStr kw.1 = s := hkws
      rcases hex with ⟨p, hp, hpm⟩
      have : s ∈ st.2 := by
        have hc2 := hcov (prev[j]) (List.getElem_mem hj2) kw hkw
        rw [hkws2] at hc2
        exact hc2 ⟨p, hp, hpm⟩
      exact m2 this
  · intro tp' htp' kw hkw hex
    rcases List.mem_append.mp htp' with h1 | h1
    · exact ti1 _ (hcov tp' h1 kw hkw hex)
    · have : tp' = tp := by simpa using h1
      subst this
      rcases hex with ⟨p, hp, hpm⟩
      exact patsFold_covers tp'.2 _ p hp kw hkw hpm

theorem themesInv_fold {kwds : List KScore} :
    ∀ (l : List (String × List String)) (prev : List (String × List String))
      (st : ThemeMap × List String),
      ThemesInv kwds prev st → ThemesInv kwds (prev ++ l) (l.foldl (procTheme kwds) st) := by
  intro l
  induction l with
  | nil => intro prev st h; simpa using h
  | cons tp l ih =>
    intro prev st h
    rw [List.foldl_cons]
    have h3 := ih (prev ++ [tp]) _ (@themesInv_step _ _ _ tp h)
    rw [List.append_assoc] at h3
    exact h3

theorem themesInv_final (kwds : List KScore) :
    ThemesInv kwds themePatterns
      (themePatterns.foldl (procTheme kwds) (([] : ThemeMap), ([] : List String))) := by
  have := themesInv_fold themePatterns [] _ (themesInv_init kwds)
  simpa using this

/-! ## Transfer from the fold state to `identifyThemes` -/

theorem identifyThemes_eq (kwds : List KScore) (b : String) :
    identifyThemes kwds b = ((themesAcc kwds).filter (fun p => !p.2.isEmpty)).map
      (fun p => (p.1, List.insertionSort (fun a b : KScore => b.2 ≤ a.2) p.2)) := rfl

theorem identifyThemes_mem_decomp {kwds : List KScore} {b t : String} {l : List KScore}
    (h : (t, l) ∈ identifyThemes kwds b) :
    ∃ q : String × List KScore,
      q ∈ themesAcc kwds ∧ q.1 = t ∧ q.2 ≠ [] ∧
      l = List.insertionSort (fun a b : KScore => b.2 ≤ a.2) q.2 := by
  rw [identifyThemes_eq] at h
  rcases List.mem_map.mp h with ⟨q, hq, heq⟩
  have hf := List.mem_filter.mp hq
  have h1 : q.1 = t := congrArg Prod.fst heq
  have h2 : List.insertionSort (fun a b : KScore => b.2 ≤ a.2) q.2 = l :=
    congrArg Prod.snd heq
  refine ⟨q, hf.1, h1, ?_, h2.symm⟩
  have := hf.2
  simpa [List.isEmpty_iff] using this

theorem themesAcc_names (kwds : List KScore) :
    (themesAcc kwds).map Prod.fst = themePatterns.map Prod.fst :=
  (themesInv_final kwds).names

theorem themesAcc_length (kwds : List KScore) :
    (themesAcc kwds).length = themePatterns.length := by
  have := congrArg List.length (themesAcc_names kwds)
  simpa using this

theorem themesAcc_getElem_name (kwds : List KScore) (k : Nat)
    (hk : k < (themesAcc kwds).length) (hk2 : k < themePatterns.length) :
    (themesAcc kwds)[k].1 = (themePatterns[k]).1 := by
  have hb1 : k < ((themesAcc kwds).map Prod.fst).length := by simpa using hk
  have hb2 : k < (themePatterns.map Prod.fst).length := by simpa using hk2
  have h1 : ((themesAcc kwds).map Prod.fst)[k] = (themesAcc kwds)[k].1 :=
    List.getElem_map _
  have h2 : (themePatterns.map Prod.fst)[k] = (themePatterns[k]).1 :=
    List.getElem_map _
  rw [← h1, ← h2]
  simp only [themesAcc_names kwds]

theorem themePatterns_names_nodup : (themePatterns.map Prod.fst).Nodup := by decide

theorem identifyThemes_name_mem {kwds : List KScore} {b t : String} {l : List KScore}
    (h : (t, l) ∈ identifyThemes kwds b) : t ∈ themePatterns.map Prod.fst := by
  rcases identifyThemes_mem_decomp h with ⟨q, hq, hqt, _, _⟩
  rw [← themesAcc_names kwds, ← hqt]
  exact List.mem_map.mpr ⟨q, hq, rfl⟩

theorem identifyThemes_keys_mem {kwds : List KScore} {b t : String} {l : List KScore}
    {s : String} (h : (t, l) ∈ identifyThemes kwds b) (hs : s ∈ l.map Prod.fst) :
    s ∈ lowKeys kwds := by
  rcases identifyThemes_mem_decomp h with ⟨q, hq, hqt, _, hl⟩
  have hperm : l.Perm q.2 := hl ▸ List.perm_insertionSort _ q.2
  have hs2 : s ∈ q.2.map Prod.fst := (hperm.map Prod.fst).mem_iff.mp hs
  rcases List.mem_iff_getElem.mp hq with ⟨k, hk, hqk⟩
  have hk2 : k < themePatterns.length := themesAcc_length kwds ▸ hk
  have hmem : s ∈ ((themePatterns.foldl (procTheme kwds)
      (([] : ThemeMap), ([] : List String))).1[k]).2.map Prod.fst := by
    have heq : (themePatterns.foldl (procTheme kwds)
        (([] : ThemeMap), ([] : List String))).1[k] = q := hqk
    rw [heq]; exact hs2
  exact ((themesInv_final kwds).matched k hk hk2 s hmem).2

/-! ## Chunk lemmas for the bound-keyword lists -/

theorem themesChunks_nodupFlat (kwds : List KScore) :
    (themesChunks kwds).flatten.Nodup := (themesInv_final kwds).nodupFlat

theorem themesChunks_getElem (kwds : List KScore) (k : Nat)
    (hk : k < (themesAcc kwds).length) (hk2 : k < (themesChunks kwds).length) :
    (themesChunks kwds)[k] = ((themesAcc kwds)[k]).2.map Prod.fst := List.getElem_map _

theorem identifyThemes_chunk {kwds : List KScore} {b t : String} {l : List KScore}
    (h : (t, l) ∈ identifyThemes kwds b) :
    ∃ (k : Nat) (hk : k < (themesAcc kwds).length),
      ((themesAcc kwds)[k]).1 = t ∧ ((themesAcc kwds)[k]).2 ≠ [] ∧
      l = List.insertionSort (fun a b : KScore => b.2 ≤ a.2) ((themesAcc kwds)[k]).2 := by
  rcases identifyThemes_mem_decomp h with ⟨q, hq, hqt, hne, hl⟩
  rcases List.mem_iff_getElem.mp hq with ⟨k, hk, hqk⟩
  exact ⟨k, hk, by rw [hqk]; exact hqt, by rw [hqk]; exact hne, by rw [hqk]; exact hl⟩

theorem themesAcc_chunk_mem {kwds : List KScore} {k : Nat}
    (hk : k < (themesAcc kwds).length) {s : String}
    (hs : s ∈ ((themesAcc kwds)[k]).2.map Prod.fst) :
    s ∈ ((themePatterns.foldl (procTheme kwds)
      (([] : ThemeMap), ([] : List String))).1[k]).2.map Prod.fst := hs

/-- Claim C9 (helper): distinct positions in the accumulator have
disjoint bound-string chunks. -/
theorem themesChunks_disjoint {kwds : List KScore} {k₁ k₂ : Nat}
    (hk₁ : k₁ < (themesAcc kwds).length) (hk₂ : k₂ < (themesAcc kwds).length)
    (hne : k₁ ≠ k₂) {s : String}
    (hs₁ : s ∈ ((themesAcc kwds)[k₁]).2.map Prod.fst)
    (hs₂ : s ∈ ((themesAcc kwds)[k₂]).2.map Prod.fst) : False := by
  have hpw := (List.nodup_flatten.mp (themesChunks_nodupFlat kwds)).2
  have hpg := List.pairwise_iff_getElem.mp hpw
  have hlen : (themesChunks kwds).length = (themesAcc kwds).length := by
    simp [themesChunks]
  have hc₁ : k₁ < (themesChunks kwds).length := by omega
  have hc₂ : k₂ < (themesChunks kwds).length := by omega
  rcases Nat.lt_or_ge k₁ k₂ with hlt | hge
  · have := hpg k₁ k₂ (by omega) (by omega) hlt
    rw [themesChunks_getElem kwds k₁ hk₁ hc₁, themesChunks_getElem kwds k₂ hk₂ hc₂] at this
    exact this hs₁ hs₂
  · have hlt : k₂ < k₁ := by omega
    have := hpg k₂ k₁ (by omega) (by omega) hlt
    rw [themesChunks_getElem kwds k₂ hk₂ hc₂, themesChunks_getElem kwds k₁ hk₁ hc₁] at this
    exact this hs₂ hs₁

/-! ## Claims C3, C6, C9 -/

/-- Claim C3: for every source-group and extracted keyword, theme-keyword
binding binds a keyword string to at most one theme, namely the theme
that occurs earliest in taxonomy order among those whose seed terms match
it; no seed of any earlier theme matches the bound string. -/
theorem claim_C3 (kwds : List KScore) (bank : String) (s t₁ : String) (l₁ : List KScore)
    (t₂ : String) (l₂ : List KScore)
    (h₁ : (t₁, l₁) ∈ identifyThemes kwds bank) (h₂ : (t₂, l₂) ∈ identifyThemes kwds bank)
    (hs₁ : s ∈ l₁.map Prod.fst) (hs₂ : s ∈ l₂.map Prod.fst) :
    (t₁ = t₂ ∧ l₁ = l₂) ∧
    ∃ pre pats post, themePatterns = pre ++ (t₁, pats) :: post ∧
      (∃ p ∈ pats, patMatch p s) ∧
      ∀ tp ∈ pre, ¬ ∃ p ∈ tp.2, patMatch p s := by
  rcases identifyThemes_chunk h₁ with ⟨k₁, hk₁, hn₁, hne₁, hl₁⟩
  rcases identifyThemes_chunk h₂ with ⟨k₂, hk₂, hn₂, hne₂, hl₂⟩
  have hperm₁ : l₁.Perm ((themesAcc kwds)[k₁]).2 := hl₁ ▸ List.perm_insertionSort _ _
  have hperm₂ : l₂.Perm ((themesAcc kwds)[k₂]).2 := hl₂ ▸ List.perm_insertionSort _ _
  have hc₁ : s ∈ ((themesAcc kwds)[k₁]).2.map Prod.fst :=
    (hperm₁.map Prod.fst).mem_iff.mp hs₁
  have hc₂ : s ∈ ((themesAcc kwds)[k₂]).2.map Prod.fst :=
    (hperm₂.map Prod.fst).mem_iff.mp hs₂
  have hkk : k₁ = k₂ := by
    by_contra hne
    exact themesChunks_disjoint hk₁ hk₂ hne hc₁ hc₂
  subst hkk
  have ht : t₁ = t₂ := by rw [← hn₁, ← hn₂]
  have hll : l₁ = l₂ := by rw [hl₁, hl₂]
  refine ⟨⟨ht, hll⟩, ?_⟩
  have hk₁' : k₁ < themePatterns.length := themesAcc_length kwds ▸ hk₁
  refine ⟨themePatterns.take k₁, (themePatterns[k₁]).2,
    themePatterns.drop (k₁ + 1), ?_, ?_, ?_⟩
  · have hname : (themePatterns[k₁]).1 = t₁ := by
      rw [← hn₁, themesAcc_getElem_name kwds k₁ hk₁ hk₁']
    have hpe : (themePatterns[k₁]) = (t₁, (themePatterns[k₁]).2) := by
      rw [← hname]
    conv_lhs => rw [← List.take_append_drop k₁ themePatterns,
      List.drop_eq_getElem_cons hk₁']
    rw [hpe]
  · exact ((themesInv_final kwds).matched k₁ hk₁ hk₁' s
      (themesAcc_chunk_mem hk₁ hc₁)).1
  · intro tp htp
    rcases List.mem_iff_getElem.mp htp with ⟨j, hj, hje⟩
    have hj' : j < k₁ := by
      have := hj
      simp only [List.length_take] at this
      omega
    have hjlt : j < themePatterns.length := by omega
    have hje2 : themePatterns[j] = tp := by
      rw [← hje]
      exact (List.getElem_take _).symm
    rw [← hje2]
    exact (themesInv_final kwds).earliest k₁ hk₁ s
      (themesAcc_chunk_mem hk₁ hc₁) j (by omega) hj'

/-- Witness for C3 at a concrete input: the keyword `error` matches seeds
of both `Account Access Issues` (taxonomy position 0) and
`App Reliability & Bugs` (position 3) and is bound only to the former. -/
theorem claim_C3_witness :
    (("Account Access Issues", [(("error" : String), (1 : ℚ))])
        ∈ identifyThemes [("error", (1 : ℚ))] "CBE") ∧
    ((("Account Access Issues" : String) = "Account Access Issues" ∧
        [(("error" : String), (1 : ℚ))] = [(("error" : String), (1 : ℚ))]) ∧
      ∃ pre pats post, themePatterns = pre ++ ("Account Access Issues", pats) :: post ∧
        (∃ p ∈ pats, patMatch p "error") ∧
        ∀ tp ∈ pre, ¬ ∃ p ∈ tp.2, patMatch p "error") :=
  ⟨by decide,
   claim_C3 [("error", (1 : ℚ))] "CBE" "error" "Account Access Issues"
     [("error", (1 : ℚ))] "Account Access Issues" [("error", (1 : ℚ))]
     (by decide) (by decide) (by decide) (by decide)⟩

/-- Claim C6: the mapping returned by `identify_themes` contains only
themes with a non-empty bound-keyword list, and each list is sorted in
descending order of weight. -/
theorem claim_C6 (kwds : List KScore) (bank : String) (t : String) (l : List KScore)
    (h : (t, l) ∈ identifyThemes kwds bank) :
    l ≠ [] ∧ l.Sorted (fun a b : KScore => b.2 ≤ a.2) := by
  rcases identifyThemes_mem_decomp h with ⟨q, hq, hqt, hne, hl⟩
  constructor
  · have hperm : l.Perm q.2 := hl ▸ List.perm_insertionSort _ q.2
    intro hnil
    rw [hnil] at hperm
    exact hne (hperm.nil_eq).symm
  · rw [hl]
    exact List.sorted_insertionSort _ _

/-- Witness for C6 at a concrete input: the bound list of
`App Reliability & Bugs` is non-empty and sorted descending. -/
theorem claim_C6_witness :
    (("App Reliability & Bugs", [(("crash bug" : String), (3 : ℚ)), (("crash" : String), (2 : ℚ))])
        ∈ identifyThemes [("crash", (2 : ℚ)), ("slow", 1), ("crash bug", 3)] "CBE") ∧
    ([(("crash bug" : String), (3 : ℚ)), (("crash" : String), (2 : ℚ))] ≠
        ([] : List KScore) ∧
      List.Sorted (fun a b : KScore => b.2 ≤ a.2)
        [(("crash bug" : String), (3 : ℚ)), (("crash" : String), (2 : ℚ))]) :=
  ⟨by decide,
   claim_C6 [("crash", (2 : ℚ)), ("slow", 1), ("crash bug", 3)] "CBE"
     "App Reliability & Bugs" [(("crash bug" : String), (3 : ℚ)), (("crash" : String), (2 : ℚ))]
     (by decide)⟩

/-- Claim C9: within the mapping returned by `identify_themes`, no
theme's bound-keyword list contains the same keyword string twice. -/
theorem claim_C9 (kwds : List KScore) (bank : String) (t : String) (l : List KScore)
    (h : (t, l) ∈ identifyThemes kwds bank) : (l.map Prod.fst).Nodup := by
  rcases identifyThemes_mem_decomp h with ⟨q, hq, hqt, hne, hl⟩
  have hperm : l.Perm q.2 := hl ▸ List.perm_insertionSort _ q.2
  have hchunks := (List.nodup_flatten.mp (themesChunks_nodupFlat kwds)).1
  have hchunk : (q.2.map Prod.fst).Nodup :=
    hchunks _ (List.mem_map.mpr ⟨q, hq, rfl⟩)
  exact (hperm.map Prod.fst).nodup_iff.mpr hchunk

/-- Witness for C9 at a concrete input: the seed terms `crash` and `bug`
of `App Reliability & Bugs` both match the keyword `crash bug`, which is
nevertheless bound once. -/
theorem claim_C9_witness :
    (("App Reliability & Bugs", [(("crash bug" : String), (3 : ℚ)), (("crash" : String), (2 : ℚ))])
        ∈ identifyThemes [("crash", (2 : ℚ)), ("slow", 1), ("crash bug", 3)] "Dashen") ∧
    (([(("crash bug" : String), (3 : ℚ)), (("crash" : String), (2 : ℚ))].map
        Prod.fst).Nodup) :=
  ⟨by decide,
   claim_C9 [("crash", (2 : ℚ)), ("slow", 1), ("crash bug", 3)] "Dashen"
     "App Reliability & Bugs" [(("crash bug" : String), (3 : ℚ)), (("crash" : String), (2 : ℚ))]
     (by decide)⟩

/-! ## Lemmas about per-review tagging -/

theorem assign_blank {r : Option String} {tm : ThemeMap} (h : isBlankT r = true) :
    assignThemeToReview r tm = [] := by
  unfold assignThemeToReview
  rw [if_pos h]

theorem matchFold_acc_mem {rl : String} :
    ∀ (tm : ThemeMap) (acc : List String) (x : String),
      x ∈ acc → x ∈ tm.foldl (matchStep rl) acc := by
  intro tm
  induction tm with
  | nil => intro acc x hx; exact hx
  | cons p tm ih =>
    intro acc x hx
    rw [List.foldl_cons]
    apply ih
    unfold matchStep
    split
    · exact List.mem_append_left _ hx
    · exact hx

theorem matchFold_sub {rl : String} :
    ∀ (tm : ThemeMap) (acc : List String) (x : String),
      x ∈ tm.foldl (matchStep rl) acc → x ∈ acc ∨ x ∈ tm.map Prod.fst := by
  intro tm
  induction tm with
  | nil => intro acc x hx; exact Or.inl hx
  | cons p tm ih =>
    intro acc x hx
    rw [List.foldl_cons] at hx
    rcases ih _ x hx with h1 | h1
    · unfold matchStep at h1
      split at h1
      · rcases List.mem_append.mp h1 with h2 | h2
        · exact Or.inl h2
        · right; simp at h2; simp [h2]
      · exact Or.inl h1
    · right; exact List.mem_cons_of_mem _ h1

theorem matchFold_of_mem {rl : String} :
    ∀ (tm : ThemeMap) (acc : List String) (T : String) (L : List KScore),
      (T, L) ∈ tm → L.any (fun kp => substrB kp.1 rl) = true →
      T ∈ tm.foldl (matchStep rl) acc := by
  intro tm
  induction tm with
  | nil => intro acc T L hm; cases hm
  | cons p tm ih =>
    intro acc T L hm hany
    rw [List.foldl_cons]
    rcases List.mem_cons.mp hm with heq | hm'
    · apply matchFold_acc_mem
      unfold matchStep
      rw [← heq]
      rw [if_pos hany]
      simp
    · exact ih _ T L hm' hany

theorem matchFold_nil {rl : String} :
    ∀ (tm : ThemeMap), (∀ p ∈ tm, p.2.any (fun kp => substrB kp.1 rl) = false) →
      ∀ acc, tm.foldl (matchStep rl) acc = acc := by
  intro tm
  induction tm with
  | nil => intro _ acc; rfl
  | cons p tm ih =>
    intro h acc
    rw [List.foldl_cons]
    have hp := h p (by simp)
    unfold matchStep
    rw [hp]
    simp only [Bool.false_eq_true, if_false]
    exact ih (fun q hq => h q (List.mem_cons_of_mem _ hq)) acc

theorem assign_mem_name {r : Option String} {tm : ThemeMap} {x : String}
    (hx : x ∈ assignThemeToReview r tm) : x = "Other" ∨ x ∈ tm.map Prod.fst := by
  unfold assignThemeToReview at hx
  by_cases hb : isBlankT r = true
  · rw [if_pos hb] at hx; cases hx
  · rw [if_neg hb] at hx
    dsimp only at hx
    split at hx
    · left; simpa using hx
    · exact Or.inr ((matchFold_sub tm [] x hx).resolve_left (by simp))

theorem assign_of_noMatch {r : Option String} {tm : ThemeMap}
    (h : ∀ p ∈ tm, ∀ kp ∈ p.2, substrB kp.1 (lowerStr (strOf r)) = false) :
    joinOr (assignThemeToReview r tm) = "Other" := by
  unfold assignThemeToReview
  by_cases hb : isBlankT r = true
  · rw [if_pos hb]; rfl
  · rw [if_neg hb]
    dsimp only
    have hall : ∀ p ∈ tm, p.2.any (fun kp => substrB kp.1 (lowerStr (strOf r))) = false := by
      intro p hp
      rw [List.any_eq_false]
      intro kp hkp
      rw [h p hp kp hkp]
      simp
    rw [matchFold_nil tm hall []]
    rfl

theorem assign_of_blank_joinOr {r : Option String} {tm : ThemeMap}
    (h : isBlankT r = true) : joinOr (assignThemeToReview r tm) = "Other" := by
  rw [assign_blank h]; rfl

theorem assign_tag_of_match {r : Option String} {tm : ThemeMap} {T : String}
    {L : List KScore} (hb : isBlankT r = false) (hm : (T, L) ∈ tm)
    (hk : ∃ kp ∈ L, substrB kp.1 (lowerStr (strOf r)) = true) :
    T ∈ assignThemeToReview r tm := by
  unfold assignThemeToReview
  rw [if_neg (by simp [hb])]
  dsimp only
  have hany : L.any (fun kp => substrB kp.1 (lowerStr (strOf r))) = true := by
    rcases hk with ⟨kp, hkp, hkm⟩
    exact List.any_eq_true.mpr ⟨kp, hkp, hkm⟩
  have hT := matchFold_of_mem tm [] T L hm hany
  split
  · rename_i hemp
    rw [List.isEmpty_iff] at hemp
    rw [hemp] at hT
    cases hT
  · exact hT

theorem assign_joinOr_ne_empty {r : Option String} {tm : ThemeMap}
    (hnames : ∀ x ∈ tm.map Prod.fst, x ≠ "") :
    joinOr (assignThemeToReview r tm) ≠ "" := by
  apply joinOr_ne_empty
  intro x hx
  rcases assign_mem_name hx with rfl | hx'
  · decide
  · exact hnames x hx'

/-! ## Row-level characterisation of `assign_themes_to_reviews` -/

theorem foldl_map_fusion {α β : Type} (g : β → α → α) :
    ∀ (l : List β) (rows : List α),
      l.foldl (fun rs p => rs.map (g p)) rows
        = rows.map (fun r => l.foldl (fun x p => g p x) r) := by
  intro l
  induction l with
  | nil =>
    intro rows
    simp
  | cons p l ih =>
    intro rows
    rw [List.foldl_cons]
    rw [ih (rows.map (g p))]
    rw [List.map_map]
    rfl

theorem assignThemesToReviews_eq_map (df : List Row)
    (bt : List (String × ThemeMap)) :
    assignThemesToReviews df bt = df.map (tagRow bt) := by
  unfold assignThemesToReviews tagRow
  rw [foldl_map_fusion]
  rw [List.map_map]
  rfl

theorem tagStep_bank (p : String × ThemeMap) (r : Row) : (tagStep p r).bank = r.bank := by
  unfold tagStep; split <;> rfl

theorem tagStep_review (p : String × ThemeMap) (r : Row) :
    (tagStep p r).review = r.review := by
  unfold tagStep; split <;> rfl

theorem tagStep_rest (p : String × ThemeMap) (r : Row) : (tagStep p r).rest = r.rest := by
  unfold tagStep; split <;> rfl

theorem tagFold_fields :
    ∀ (bt : List (String × ThemeMap)) (x : Row),
      (bt.foldl (fun x p => tagStep p x) x).bank = x.bank ∧
      (bt.foldl (fun x p => tagStep p x) x).review = x.review ∧
      (bt.foldl (fun x p => tagStep p x) x).rest = x.rest := by
  intro bt
  induction bt with
  | nil => intro x; exact ⟨rfl, rfl, rfl⟩
  | cons p bt ih =>
    intro x
    rw [List.foldl_cons]
    rcases ih (tagStep p x) with ⟨h1, h2, h3⟩
    exact ⟨by rw [h1, tagStep_bank], by rw [h2, tagStep_review], by rw [h3, tagStep_rest]⟩

theorem tagFold_themes :
    ∀ (bt : List (String × ThemeMap)) (x : Row),
      (bt.foldl (fun x p => tagStep p x) x).themes =
        match lastTM bt x.bank with
        | some tm => joinOr (assignThemeToReview x.review tm)
        | none => x.themes := by
  intro bt
  induction bt with
  | nil => intro x; rfl
  | cons p bt ih =>
    intro x
    rw [List.foldl_cons]
    have hcons : lastTM (p :: bt) x.bank =
        match lastTM bt x.bank with
        | some tm => some tm
        | none => if p.1 == x.bank then some p.2 else none := rfl
    rw [hcons]
    by_cases hb : x.bank == p.1
    · have hb' : (p.1 == x.bank) = true := by
        rw [beq_iff_eq] at hb ⊢
        exact hb.symm
      have hx' : tagStep p x =
          { x with themes := joinOr (assignThemeToReview x.review p.2) } := by
        unfold tagStep
        rw [if_pos hb]
      rw [hx', ih]
      rcases lastTM bt x.bank with _ | tm
      · simp [hb']
      · rfl
    · have hb' : (p.1 == x.bank) = false := by
        rw [beq_eq_false_iff_ne]
        intro he
        exact hb (beq_iff_eq.mpr he.symm)
      have hx' : tagStep p x = x := by
        unfold tagStep
        rw [if_neg hb]
      rw [hx', ih]
      rcases lastTM bt x.bank with _ | tm
      · simp [hb']
      · rfl

theorem tagRow_bank (bt : List (String × ThemeMap)) (r : Row) :
    (tagRow bt r).bank = r.bank := (tagFold_fields bt _).1

theorem tagRow_review (bt : List (String × ThemeMap)) (r : Row) :
    (tagRow bt r).review = r.review := (tagFold_fields bt _).2.1

theorem tagRow_rest (bt : List (String × ThemeMap)) (r : Row) :
    (tagRow bt r).rest = r.rest := (tagFold_fields bt _).2.2

theorem tagRow_themes (bt : List (String × ThemeMap)) (r : Row) :
    (tagRow bt r).themes =
      match lastTM bt r.bank with
      | some tm => joinOr (assignThemeToReview r.review tm)
      | none => "" := tagFold_themes bt _

theorem lastTM_mem {bt : List (String × ThemeMap)} {b : String} {tm : ThemeMap} :
    lastTM bt b = some tm → (b, tm) ∈ bt := by
  induction bt with
  | nil => intro h; cases h
  | cons p bt ih =>
    intro h
    have hcons : lastTM (p :: bt) b =
        match lastTM bt b with
        | some tm => some tm
        | none => if p.1 == b then some p.2 else none := rfl
    rw [hcons] at h
    rcases hrec : lastTM bt b with _ | tm'
    · rw [hrec] at h
      by_cases hb : (p.1 == b) = true
      · rw [if_pos hb] at h
        have h' : some p.2 = some tm := h
        have h1 : p.2 = tm := by injection h'
        have h2 : p.1 = b := beq_iff_eq.mp hb
        have hpe : (b, tm) = p := by rw [← h1, ← h2]
        rw [hpe]
        exact List.mem_cons_self _ _
      · rw [if_neg hb] at h
        have h' : (none : Option ThemeMap) = some tm := h
        cases h'
    · rw [hrec] at h
      have : tm' = tm := by injection h
      subst this
      exact List.mem_cons_of_mem _ (ih hrec)

theorem lastTM_isSome {bt : List (String × ThemeMap)} {b : String}
    (hb : b ∈ bt.map Prod.fst) : ∃ tm, lastTM bt b = some tm := by
  induction bt with
  | nil => cases hb
  | cons p bt ih =>
    have hcons : lastTM (p :: bt) b =
        match lastTM bt b with
        | some tm => some tm
        | none => if p.1 == b then some p.2 else none := rfl
    rw [hcons]
    rcases hrec : lastTM bt b with _ | tm
    · rcases List.mem_map.mp hb with ⟨q, hq, hqb⟩
      rcases List.mem_cons.mp hq with rfl | hq'
      · exact ⟨q.2, by rw [if_pos (beq_iff_eq.mpr hqb)]⟩
      · rcases ih (List.mem_map.mpr ⟨q, hq', hqb⟩) with ⟨tm, htm⟩
        rw [htm] at hrec
        cases hrec
    · exact ⟨tm, rfl⟩

/-! ## Facts about `analyze_themes_by_bank` -/

theorem analyzeThemesByBank_keys (score : String → ℚ)
    (nlp : Option (String → List String)) (df : List Row) :
    (analyzeThemesByBank score nlp df).map Prod.fst
      = uniqueFirst (df.map (fun r => r.bank)) := by
  unfold analyzeThemesByBank
  rw [List.map_map]
  have : ∀ x ∈ uniqueFirst (df.map (fun r => r.bank)),
      (Prod.fst ∘ fun bank =>
        (bank,
          identifyThemes
            (let kwds := extractKeywordsTfidf score 100
              ((df.filter (fun r => r.bank == bank)).map (fun r => r.review));
             if kwds.isEmpty then
              extractKeywordsSpacy nlp 100
                ((df.filter (fun r => r.bank == bank)).map (fun r => r.review))
             else kwds) bank)) x = id x := fun x _ => rfl
  rw [List.map_congr_left this, List.map_id]

theorem analyzeThemesByBank_mem {score : String → ℚ}
    {nlp : Option (String → List String)} {df : List Row} {b : String} {tm : ThemeMap}
    (h : (b, tm) ∈ analyzeThemesByBank score nlp df) :
    ∃ kwds, tm = identifyThemes kwds b := by
  unfold analyzeThemesByBank at h
  rcases List.mem_map.mp h with ⟨bank, hb, heq⟩
  have h1 : bank = b := congrArg Prod.fst heq
  subst h1
  exact ⟨_, (congrArg Prod.snd heq).symm⟩

theorem identifyThemes_names_sub {kwds : List KScore} {b x : String}
    (hx : x ∈ (identifyThemes kwds b).map Prod.fst) :
    x ∈ themePatterns.map Prod.fst := by
  rcases List.mem_map.mp hx with ⟨q, hq, rfl⟩
  exact identifyThemes_name_mem (show (q.1, q.2) ∈ identifyThemes kwds b from hq)

theorem themePatterns_names_ne_empty :
    ∀ x ∈ themePatterns.map Prod.fst, x ≠ "" := by decide

/-! ## Claims C1 and C10 -/

/-- Claim C1: every review processed by the full theme-tagging pipeline
(`assign_themes_to_reviews` over a `bank_themes` mapping built from the
same dataframe) ends with a non-empty themes tag; a blank review, or one
in which no bound keyword occurs, is tagged with the single theme
`Other`. -/
theorem claim_C1 (score : String → ℚ) (nlp : Option (String → List String))
    (df : List Row) (r : Row)
    (hr : r ∈ assignThemesToReviews df (analyzeThemesByBank score nlp df)) :
    r.themes ≠ "" ∧
    ∃ tm, (r.bank, tm) ∈ analyzeThemesByBank score nlp df ∧
      r.themes = joinOr (assignThemeToReview r.review tm) ∧
      (isBlankT r.review = true → r.themes = "Other") ∧
      ((∀ p ∈ tm, ∀ kp ∈ p.2, substrB kp.1 (lowerStr (strOf r.review)) = false) →
        r.themes = "Other") := by
  rw [assignThemesToReviews_eq_map] at hr
  rcases List.mem_map.mp hr with ⟨r₀, hr₀, rfl⟩
  have hbank : (tagRow (analyzeThemesByBank score nlp df) r₀).bank = r₀.bank :=
    tagRow_bank _ _
  have hreview : (tagRow (analyzeThemesByBank score nlp df) r₀).review = r₀.review :=
    tagRow_review _ _
  have hkey : r₀.bank ∈ (analyzeThemesByBank score nlp df).map Prod.fst := by
    rw [analyzeThemesByBank_keys]
    exact mem_uniqueFirst (List.mem_map.mpr ⟨r₀, hr₀, rfl⟩)
  rcases lastTM_isSome hkey with ⟨tm, htm⟩
  have hthemes : (tagRow (analyzeThemesByBank score nlp df) r₀).themes
      = joinOr (assignThemeToReview r₀.review tm) := by
    rw [tagRow_themes, htm]
  have hmemtm : (r₀.bank, tm) ∈ analyzeThemesByBank score nlp df := lastTM_mem htm
  obtain ⟨kwds, htmeq⟩ := analyzeThemesByBank_mem hmemtm
  have hnames : ∀ x ∈ tm.map Prod.fst, x ≠ "" := by
    intro x hx
    rw [htmeq] at hx
    exact themePatterns_names_ne_empty x (identifyThemes_names_sub hx)
  refine ⟨?_, tm, ?_, ?_, ?_, ?_⟩
  · rw [hthemes]
    exact assign_joinOr_ne_empty hnames
  · rw [hbank]
    exact hmemtm
  · rw [hthemes, hreview]
  · intro hb
    rw [hreview] at hb
    rw [hthemes]
    exact assign_of_blank_joinOr hb
  · intro hnm
    rw [hreview] at hnm
    rw [hthemes]
    exact assign_of_noMatch hnm

/-- Witness for C1 at a concrete one-row dataframe whose corpus yields no
keywords: the row is tagged `Other`. -/
theorem claim_C1_witness :
    (({ bank := "CBE", review := some "great app", themes := "Other", rest := [] } : Row)
        ∈ assignThemesToReviews
          [{ bank := "CBE", review := some "great app", themes := "x", rest := [] }]
          (analyzeThemesByBank (fun _ => 0) none
            [{ bank := "CBE", review := some "great app", themes := "x", rest := [] }])) ∧
    (({ bank := "CBE", review := some "great app", themes := "Other", rest := [] } : Row).themes
        ≠ "" ∧
      ∃ tm, (("CBE" : String), tm) ∈ analyzeThemesByBank (fun _ => 0) none
          [{ bank := "CBE", review := some "great app", themes := "x", rest := [] }] ∧
        ("Other" : String) = joinOr (assignThemeToReview (some "great app") tm) ∧
        (isBlankT (some "great app") = true → ("Other" : String) = "Other") ∧
        ((∀ p ∈ tm, ∀ kp ∈ p.2,
            substrB kp.1 (lowerStr (strOf (some "great app"))) = false) →
          ("Other" : String) = "Other")) :=
  ⟨by decide,
   claim_C1 (fun _ => 0) none
     [{ bank := "CBE", review := some "great app", themes := "x", rest := [] }]
     { bank := "CBE", review := some "great app", themes := "Other", rest := [] }
     (by decide)⟩

/-- Claim C10: `assign_themes_to_reviews` operates on a copy and returns
a dataframe that agrees with its input on every row and every column, in
the same order, except for the `themes` column. -/
theorem claim_C10 (df : List Row) (bt : List (String × ThemeMap)) (i : Nat)
    (hi : i < df.length) :
    (assignThemesToReviews df bt).length = df.length ∧
    ((assignThemesToReviews df bt).get
        ⟨i, by rw [assignThemesToReviews_eq_map]; simpa using hi⟩).bank = (df[i]).bank ∧
    ((assignThemesToReviews df bt).get
        ⟨i, by rw [assignThemesToReviews_eq_map]; simpa using hi⟩).review = (df[i]).review ∧
    ((assignThemesToReviews df bt).get
        ⟨i, by rw [assignThemesToReviews_eq_map]; simpa using hi⟩).rest = (df[i]).rest := by
  have hlen : (assignThemesToReviews df bt).length = df.length := by
    rw [assignThemesToReviews_eq_map]
    simp
  refine ⟨hlen, ?_, ?_, ?_⟩
  all_goals
    have hget : ((assignThemesToReviews df bt).get
        ⟨i, by rw [assignThemesToReviews_eq_map]; simpa using hi⟩) = tagRow bt (df[i]) := by
      rw [List.get_eq_getElem]
      have hib : i < (df.map (tagRow bt)).length := by simpa using hi
      have hm : (df.map (tagRow bt))[i] = tagRow bt (df[i]) := List.getElem_map _
      rw [← hm]
      congr 1
      exact assignThemesToReviews_eq_map df bt
    rw [hget]
  · exact tagRow_bank _ _
  · exact tagRow_review _ _
  · exact tagRow_rest _ _

/-- Witness for C10 at a concrete input: the extra column and the review
of the single row survive tagging unchanged. -/
theorem claim_C10_witness :
    (0 < ([rowW10] : List Row).length) ∧
    ((assignThemesToReviews [rowW10] btW10).length = ([rowW10] : List Row).length ∧
      ((assignThemesToReviews [rowW10] btW10).get ⟨0, by decide⟩).bank
        = (([rowW10] : List Row)[0]).bank ∧
      ((assignThemesToReviews [rowW10] btW10).get ⟨0, by decide⟩).review
        = (([rowW10] : List Row)[0]).review ∧
      ((assignThemesToReviews [rowW10] btW10).get ⟨0, by decide⟩).rest
        = (([rowW10] : List Row)[0]).rest) :=
  ⟨by decide, claim_C10 [rowW10] btW10 0 (by decide)⟩

/-! ## Claim C4: empty corpora and failed extraction degrade to `Other` -/

/-- Claim C4: an empty corpus (or any corpus on which the vectorizer
fit raises, i.e. yields an empty vocabulary) gives an empty keyword
sequence from both extractors without an exception escaping; binding an
empty keyword sequence gives an empty theme mapping; and under an empty
theme mapping every review is tagged exactly `Other`. -/
theorem claim_C4 :
    (∀ (score : String → ℚ) (mf : Nat), extractKeywordsTfidf score mf [] = []) ∧
    (∀ (nlp : Option (String → List String)) (n : Nat),
      extractKeywordsSpacy nlp n [] = []) ∧
    (∀ (score : String → ℚ) (mf : Nat) (texts : List (Option String)),
      tfidfVocabulary mf texts = [] → extractKeywordsTfidf score mf texts = []) ∧
    (∀ bank, identifyThemes [] bank = []) ∧
    (∀ review : Option String, joinOr (assignThemeToReview review []) = "Other") := by
  refine ⟨?_, ?_, ?_, ?_, ?_⟩
  · intro score mf
    unfold extractKeywordsTfidf tfidfVocabulary
    simp [uniqueFirst, uniqueFirstAux]
  · intro nlp n
    rcases nlp with _ | f
    · rfl
    · unfold extractKeywordsSpacy
      simp [uniqueFirst, uniqueFirstAux]
  · intro score mf texts hv
    unfold extractKeywordsTfidf
    rw [hv]
    rfl
  · intro bank
    rfl
  · intro review
    unfold assignThemeToReview
    by_cases hb : isBlankT review = true
    · rw [if_pos hb]; rfl
    · rw [if_neg hb]; rfl

/-- Witness for C4: a one-document corpus has no term with document
frequency 2, so the fitted vocabulary is empty and extraction returns
the empty keyword list. -/
theorem claim_C4_witness :
    (tfidfVocabulary 100 [some "great app"] = [] ∧
      extractKeywordsTfidf (fun _ => 0) 100 [some "great app"] = []) :=
  ⟨by decide, claim_C4.2.2.1 (fun _ => 0) 100 [some "great app"] (by decide)⟩

/-! ## Claim C7: the sentiment contract of `analyze_text` -/

theorem vaderStep_spec (a : SAnalyzer) (t : String)
    (hv : ∀ s, -1 ≤ a.vader s ∧ a.vader s ≤ 1) :
    ((vaderStep a t).1 = "positive" ∨ (vaderStep a t).1 = "negative" ∨
      (vaderStep a t).1 = "neutral") ∧
    0 ≤ (vaderStep a t).2 ∧ (vaderStep a t).2 ≤ 1 := by
  unfold vaderStep
  by_cases hV : a.hasVader = true
  · rw [if_pos hV]
    rcases hv t with ⟨hv1, hv2⟩
    by_cases h1 : (1 : ℚ)/20 ≤ a.vader t
    · rw [if_pos h1]
      exact ⟨Or.inl rfl, by constructor <;> [linarith; linarith]⟩
    · rw [if_neg h1]
      by_cases h2 : a.vader t ≤ -(1/20 : ℚ)
      · rw [if_pos h2]
        refine ⟨Or.inr (Or.inl rfl), abs_nonneg _, ?_⟩
        rw [abs_le]
        exact ⟨hv1, hv2⟩
      · rw [if_neg h2]
        refine ⟨Or.inr (Or.inr rfl), abs_nonneg _, ?_⟩
        rw [abs_le]
        exact ⟨hv1, hv2⟩
  · rw [if_neg hV]
    exact ⟨Or.inr (Or.inr rfl), by norm_num⟩

/-- Claim C7: `analyze_text` always returns a label among
positive/negative/neutral and a score in `[0, 1]` (assuming the
classifier's confidence lies in `[0, 1]` and the VADER compound score in
`[-1, 1]`, which are the collaborators' documented contracts), and on
blank text returns exactly `('neutral', 0.0)` for every analyzer, i.e.
without invoking the classifier. -/
theorem claim_C7 (a : SAnalyzer) (text : Option String)
    (hd : ∀ s lab sc, a.dbert s = .ok (lab, sc) → 0 ≤ sc ∧ sc ≤ 1)
    (hv : ∀ s, -1 ≤ a.vader s ∧ a.vader s ≤ 1) :
    (((analyzeText a text).1.1 = "positive" ∨ (analyzeText a text).1.1 = "negative" ∨
        (analyzeText a text).1.1 = "neutral") ∧
      0 ≤ (analyzeText a text).1.2 ∧ (analyzeText a text).1.2 ≤ 1) ∧
    (isBlankSent text = true →
      ∀ a' : SAnalyzer, analyzeText a' text = (("neutral", 0), a')) := by
  constructor
  · unfold analyzeText
    by_cases hb : isBlankSent text = true
    · rw [if_pos hb]
      exact ⟨Or.inr (Or.inr rfl), by norm_num⟩
    · rw [if_neg hb]
      dsimp only
      by_cases hdb : (a.useDistilbert && a.hasDbert) = true
      · rw [if_pos hdb]
        rcases hres : a.dbert (takeStr 512 (trimStr (strOf text))) with e | ⟨lab, sc⟩
        · dsimp only
          exact vaderStep_spec _ _ hv
        · dsimp only
          rcases hd _ _ _ hres with ⟨hs1, hs2⟩
          by_cases hp : (lowerStr lab == "positive") = true
          · rw [if_pos hp]
            exact ⟨Or.inl rfl, hs1, hs2⟩
          · rw [if_neg hp]
            by_cases hn : (lowerStr lab == "negative") = true
            · rw [if_pos hn]
              exact ⟨Or.inr (Or.inl rfl), hs1, hs2⟩
            · rw [if_neg hn]
              exact ⟨Or.inr (Or.inr rfl), by norm_num⟩
      · rw [if_neg hdb]
        exact vaderStep_spec _ _ hv
  · intro hb a'
    unfold analyzeText
    rw [if_pos hb]

/-- Witness for C7: the concrete analyzer on a non-blank text. -/
theorem claim_C7_witness :
    (((analyzeText saW7 (some "works nice")).1.1 = "positive" ∨
        (analyzeText saW7 (some "works nice")).1.1 = "negative" ∨
        (analyzeText saW7 (some "works nice")).1.1 = "neutral") ∧
      0 ≤ (analyzeText saW7 (some "works nice")).1.2 ∧
        (analyzeText saW7 (some "works nice")).1.2 ≤ 1) ∧
    (isBlankSent (some "works nice") = true →
      ∀ a' : SAnalyzer, analyzeText a' (some "works nice") = (("neutral", 0), a')) := by
  refine claim_C7 saW7 (some "works nice") ?_ ?_
  · intro s lab sc h
    have h' : (Except.ok ("POSITIVE", (9/10 : ℚ)) : Except Unit (String × ℚ)) = .ok (lab, sc) := h
    cases h'
    constructor <;> norm_num
  · intro s
    constructor <;> norm_num [saW7]

/-! ## Claim C8: aggregation percentages and counts -/

theorem label_count_partition :
    ∀ (l : List SRow),
      (∀ r ∈ l, r.label = "positive" ∨ r.label = "negative" ∨ r.label = "neutral") →
      (l.filter (fun r => r.label == "positive")).length +
        (l.filter (fun r => r.label == "negative")).length +
        (l.filter (fun r => r.label == "neutral")).length = l.length := by
  intro l
  induction l with
  | nil => intro _; rfl
  | cons r l ih =>
    intro h
    have hr := h r (by simp)
    have hrest := ih (fun q hq => h q (List.mem_cons_of_mem _ hq))
    rcases hr with h1 | h1 | h1 <;>
      · rw [List.filter_cons, List.filter_cons, List.filter_cons, h1]
        simp only [beq_self_eq_true, if_true]
        norm_num [show (("positive" : String) == "negative") = false by decide,
          show (("positive" : String) == "neutral") = false by decide,
          show (("negative" : String) == "positive") = false by decide,
          show (("negative" : String) == "neutral") = false by decide,
          show (("neutral" : String) == "positive") = false by decide,
          show (("neutral" : String) == "negative") = false by decide]
        omega

/-- Claim C8: in every (bank, rating) bucket of the aggregation, if every
review of that bucket carries one of the three sentiment labels, the three
percentages sum to exactly 100 and `review_count` is the exact number of
input rows with that bank and rating. -/
theorem claim_C8 (df : List SRow) :
    ∀ a ∈ aggregateSentiment df,
      (∀ r ∈ df.filter (fun r => r.bank == a.bank && r.rating == a.rating),
          r.label = "positive" ∨ r.label = "negative" ∨ r.label = "neutral") →
      a.positivePct + a.negativePct + a.neutralPct = 100 ∧
      a.reviewCount
        = (df.filter (fun r => r.bank == a.bank && r.rating == a.rating)).length := by
  intro a ha hbkt
  unfold aggregateSentiment at ha
  rcases List.mem_flatMap.mp ha with ⟨b, hb, ha2⟩
  dsimp only at ha2
  rcases List.mem_filterMap.mp ha2 with ⟨rt, hrt, hmk⟩
  by_cases hlen :
      0 < ((df.filter (fun r => r.bank == b)).filter (fun r => r.rating == rt)).length
  · rw [if_pos hlen] at hmk
    obtain rfl := Option.some.inj hmk
    have hsub : ∀ r ∈ (df.filter (fun r => r.bank == b)).filter (fun r => r.rating == rt),
        r.label = "positive" ∨ r.label = "negative" ∨ r.label = "neutral" := by
      intro r hr
      have hr2 := List.mem_filter.mp hr
      have hr1 := List.mem_filter.mp hr2.1
      refine hbkt r (List.mem_filter.mpr ⟨hr1.1, ?_⟩)
      have h3 : (r.bank == b) = true := hr1.2
      have h2 : (r.rating == rt) = true := hr2.2
      show (r.bank == b && r.rating == rt) = true
      exact Bool.and_eq_true_iff.mpr ⟨h3, h2⟩
    have hpart := label_count_partition _ hsub
    constructor
    · dsimp only
      have hnz : ((((df.filter (fun r => r.bank == b)).filter
          (fun r => r.rating == rt)).length : Nat) : ℚ) ≠ 0 := by
        exact_mod_cast Nat.pos_iff_ne_zero.mp hlen
      have hgen : ∀ (p q u n : Nat), p + q + u = n → ((n : Nat) : ℚ) ≠ 0 →
          ((p : Nat) : ℚ)/n*100 + ((q : Nat) : ℚ)/n*100 + ((u : Nat) : ℚ)/n*100 = 100 := by
        intro p q u n hpqu hnz2
        have key : (((p : Nat) : ℚ) + q + u) = ((n : Nat) : ℚ) := by exact_mod_cast hpqu
        field_simp
        linarith [key]
      exact hgen _ _ _ _ hpart hnz
    · dsimp only
      rw [List.filter_filter]
      have hcg : ∀ r ∈ df, ((r.rating == rt) && (r.bank == b))
          = ((r.bank == b) && (r.rating == rt)) := fun r _ => Bool.and_comm _ _
      rw [List.filter_congr hcg]
  · rw [if_neg hlen] at hmk
    cases hmk

/-- Witness for C8: on the synthetic 10-review set the per-bucket label
hypothesis holds concretely in every bucket (each bucket's rows are input
rows, whose labels are all valid by computation), so every bucket's
percentages sum to 100 and its count matches the input counts. -/
theorem claim_C8_witness :
    (∀ r ∈ df10W, r.label = "positive" ∨ r.label = "negative" ∨ r.label = "neutral") ∧
    ∀ a ∈ aggregateSentiment df10W,
      a.positivePct + a.negativePct + a.neutralPct = 100 ∧
      a.reviewCount
        = (df10W.filter (fun r => r.bank == a.bank && r.rating == a.rating)).length := by
  have hall : ∀ r ∈ df10W,
      r.label = "positive" ∨ r.label = "negative" ∨ r.label = "neutral" := by decide
  refine ⟨hall, ?_⟩
  intro a ha
  exact claim_C8 df10W a ha (fun r hr => hall r (List.mem_of_mem_filter hr))

/-! ## Claim C5: exception behaviour of `run_full_pipeline` -/

/-- Counterexample to C5 as stated: on a CSV that lacks the `bank`
column, `run_full_pipeline` raises `KeyError('bank')` (at
`df['bank'].unique()` inside `analyze_themes_by_bank`) instead of
returning a sentinel — only `FileNotFoundError` of the read step is
caught. -/
theorem claim_C5_counterexample :
    runFullPipeline saW5 (fun _ => 0) none (.csv ["review"] [rowW5])
      = .error (.keyError "bank") := rfl

/-- Claim C5 as amended: `run_full_pipeline` returns the `None` sentinel
(without raising) exactly for a missing input file; a malformed CSV
raises `ParserError`, and a parseable CSV with the `review` and `bank`
columns and at least one row completes and returns an output frame;
`main` reports failure exactly on the `None` sentinel. -/
theorem claim_C5 :
    (∀ (sa : SAnalyzer) (score : String → ℚ) (nlp : Option (String → List String)),
      runFullPipeline sa score nlp .missing = .ok none) ∧
    (∀ (sa : SAnalyzer) (score : String → ℚ) (nlp : Option (String → List String)),
      runFullPipeline sa score nlp .malformed = .error .parserError) ∧
    (∀ (sa : SAnalyzer) (score : String → ℚ) (nlp : Option (String → List String))
        (cols : List String) (rows : List Row),
      "review" ∈ cols → "bank" ∈ cols → rows ≠ [] →
      runFullPipeline sa score nlp (.csv cols rows)
        = .ok (some (assignThemesToReviews rows (analyzeThemesByBank score nlp rows)))) ∧
    (∀ (sa : SAnalyzer) (score : String → ℚ) (nlp : Option (String → List String))
        (input : InputFile),
      runFullPipeline sa score nlp input = .ok none →
      mainReportsSuccess sa score nlp input = .ok false) := by
  refine ⟨fun _ _ _ => rfl, fun _ _ _ => rfl, ?_, ?_⟩
  · intro sa score nlp cols rows hrev hbank hrows
    have h1 : requireCol (cols ++ ["review_id"]) "review" = .ok () := by
      simp [requireCol, hrev]
    have hne : rows.isEmpty = false := by
      simpa [List.isEmpty_iff] using hrows
    have h2 : requireCol ((cols ++ ["review_id"]) ++
        (if rows.isEmpty then [] else ["sentiment_label", "sentiment_score"]))
        "sentiment_label" = .ok () := by
      rw [hne]
      simp [requireCol]
    have h3 : requireCol ((cols ++ ["review_id"]) ++
        (if rows.isEmpty then [] else ["sentiment_label", "sentiment_score"]))
        "bank" = .ok () := by
      simp [requireCol, hbank]
    unfold runFullPipeline
    simp only [readCsv]
    rw [h1, h2, h3]
    rfl
  · intro sa score nlp input h
    unfold mainReportsSuccess
    rw [h]
    rfl

/-- Witness for C5 (amended): the concrete well-formed run completes,
and the missing-file run returns the sentinel. -/
theorem claim_C5_witness :
    (("review" : String) ∈ ["review", "bank"] ∧ ("bank" : String) ∈ ["review", "bank"] ∧
      ([rowW5] : List Row) ≠ []) ∧
    runFullPipeline saW5 (fun _ => 0) none (.csv ["review", "bank"] [rowW5])
      = .ok (some (assignThemesToReviews [rowW5]
          (analyzeThemesByBank (fun _ => 0) none [rowW5]))) :=
  ⟨⟨by decide, by decide, by decide⟩,
   claim_C5.2.2.1 saW5 (fun _ => 0) none ["review", "bank"] [rowW5]
     (by decide) (by decide) (by decide)⟩

/-! ## Lowercase stability of the fitted vocabulary -/

theorem stripUrlsGo_chars :
    ∀ (b : Bool) (l : List Char) (c : Char), c ∈ stripUrlsGo b l → c ∈ l := by
  intro b l
  induction l generalizing b with
  | nil =>
    intro c hc
    cases b <;> simp [stripUrlsGo] at hc
  | cons a as ih =>
    intro c hc
    cases b with
    | true =>
      rw [stripUrlsGo] at hc
      split at hc
      · rcases List.mem_cons.mp hc with rfl | hc'
        · simp
        · exact List.mem_cons_of_mem _ (ih false c hc')
      · exact List.mem_cons_of_mem _ (ih true c hc)
    | false =>
      rw [stripUrlsGo] at hc
      split at hc
      · exact List.mem_cons_of_mem _ (ih true c hc)
      · rcases List.mem_cons.mp hc with rfl | hc'
        · simp
        · exact List.mem_cons_of_mem _ (ih false c hc')

theorem fixChars_chars {l : List Char} {c : Char} (hc : c ∈ fixChars l) :
    c ∈ l ∨ c = ' ' := by
  unfold fixChars at hc
  rcases List.mem_map.mp hc with ⟨d, hd, hdc⟩
  by_cases h : (isWordChar d || d.isWhitespace) = true
  · rw [if_pos h] at hdc
    exact Or.inl (hdc ▸ hd)
  · rw [if_neg h] at hdc
    exact Or.inr hdc.symm

theorem wordsAux_chars :
    ∀ (l : List Char) (cur : List Char) (w : List Char), w ∈ wordsAux cur l →
      ∀ c ∈ w, c ∈ cur ∨ c ∈ l := by
  intro l
  induction l with
  | nil =>
    intro cur w hw c hc
    rw [wordsAux] at hw
    split at hw
    · cases hw
    · have : w = cur.reverse := by simpa using hw
      subst this
      exact Or.inl (List.mem_reverse.mp hc)
  | cons a as ih =>
    intro cur w hw c hc
    rw [wordsAux] at hw
    split at hw
    · split at hw
      · rcases ih [] w hw c hc with h1 | h1
        · cases h1
        · exact Or.inr (List.mem_cons_of_mem _ h1)
      · rcases List.mem_cons.mp hw with rfl | hw'
        · exact Or.inl (List.mem_reverse.mp hc)
        · rcases ih [] w hw' c hc with h1 | h1
          · cases h1
          · exact Or.inr (List.mem_cons_of_mem _ h1)
    · rcases ih (a :: cur) w hw c hc with h1 | h1
      · rcases List.mem_cons.mp h1 with rfl | h2
        · exact Or.inr (by simp)
        · exact Or.inl h2
      · exact Or.inr (List.mem_cons_of_mem _ h1)

theorem joinStrs_chars {sep : String} :
    ∀ (ws : List String) (c : Char), c ∈ (joinStrs sep ws).data →
      (∃ w ∈ ws, c ∈ w.data) ∨ c ∈ sep.data := by
  intro ws
  match ws with
  | [] => intro c hc; cases hc
  | [a] =>
    intro c hc
    exact Or.inl ⟨a, by simp, hc⟩
  | a :: b :: rest =>
    intro c hc
    have hc2 : c ∈ (a ++ sep ++ joinStrs sep (b :: rest)).data := hc
    rw [String.data_append, String.data_append] at hc2
    rcases List.mem_append.mp hc2 with h1 | h1
    · rcases List.mem_append.mp h1 with h2 | h2
      · exact Or.inl ⟨a, by simp, h2⟩
      · exact Or.inr h2
    · rcases joinStrs_chars (b :: rest) c h1 with ⟨w, hw, hcw⟩ | h2
      · exact Or.inl ⟨w, List.mem_cons_of_mem _ hw, hcw⟩
      · exact Or.inr h2

theorem preprocessText_chars_fixed (t : Option String) :
    ∀ c ∈ (preprocessText t).data, lowerChar c = c := by
  rcases t with _ | s
  · intro c hc; cases hc
  · have he : preprocessText (some s) = if (s == "") = true then "" else
        joinStrs " " ((wordsAux [] (fixChars (stripUrlsGo false
          (lowerStr s).data))).map (fun w => ⟨w⟩)) := rfl
    by_cases hs : (s == "") = true
    · intro c hc
      rw [he, if_pos hs] at hc
      cases hc
    · intro c hc
      rw [he, if_neg hs] at hc
      rcases joinStrs_chars _ c hc with ⟨w, hw, hcw⟩ | hsep
      · rcases List.mem_map.mp hw with ⟨wl, hwl, hww⟩
        have hcwl : c ∈ wl := by
          rw [← hww] at hcw
          exact hcw
        rcases wordsAux_chars _ [] wl hwl c hcwl with h1 | h1
        · cases h1
        · rcases fixChars_chars h1 with h2 | h2
          · have h3 := stripUrlsGo_chars false _ c h2
            rcases List.mem_map.mp h3 with ⟨d, _, hdc⟩
            rw [← hdc]
            exact lowerChar_lowerChar d
          · rw [h2]; decide
      · have : c = ' ' := by simpa using hsep
        rw [this]; decide

theorem docTokens_chars_fixed (t : Option String) :
    ∀ w ∈ docTokens t, ∀ c ∈ w.data, lowerChar c = c := by
  intro w hw c hc
  unfold docTokens at hw
  have hw2 := (List.mem_filter.mp hw).1
  rcases List.mem_map.mp hw2 with ⟨wl, hwl, hww⟩
  have hcwl : c ∈ wl := by
    rw [← hww] at hc
    exact hc
  rcases wordsAux_chars _ [] wl hwl c hcwl with h1 | h1
  · cases h1
  · exact preprocessText_chars_fixed t c h1

theorem mem_zipWith_decomp {α β γ : Type} {f : α → β → γ} :
    ∀ {l1 : List α} {l2 : List β} {x : γ}, x ∈ List.zipWith f l1 l2 →
      ∃ a ∈ l1, ∃ b ∈ l2, x = f a b := by
  intro l1
  induction l1 with
  | nil => intro l2 x hx; cases hx
  | cons a as ih =>
    intro l2 x hx
    cases l2 with
    | nil => cases hx
    | cons b bs =>
      rw [List.zipWith_cons_cons] at hx
      rcases List.mem_cons.mp hx with rfl | hx'
      · exact ⟨a, by simp, b, by simp, rfl⟩
      · rcases ih hx' with ⟨a', ha', b', hb', hfx⟩
        exact ⟨a', List.mem_cons_of_mem _ ha', b', List.mem_cons_of_mem _ hb', hfx⟩

theorem docNgrams_lower_fixed (t : Option String) :
    ∀ w ∈ docNgrams t, lowerStr w = w := by
  intro w hw
  unfold docNgrams at hw
  have hfix : ∀ w ∈ (docTokens t).filter (fun w => !(stopWords.contains w)),
      ∀ c ∈ w.data, lowerChar c = c := by
    intro w hw
    exact docTokens_chars_fixed t w (List.mem_filter.mp hw).1
  rcases List.mem_append.mp hw with h1 | h1
  · exact lowerStr_eq_self (hfix w h1)
  · rcases mem_zipWith_decomp h1 with ⟨a, ha, b, hb, rfl⟩
    apply lowerStr_eq_self
    intro c hc
    rw [String.data_append, String.data_append] at hc
    rcases List.mem_append.mp hc with h2 | h2
    · rcases List.mem_append.mp h2 with h3 | h3
      · exact hfix a ha c h3
      · have : c = ' ' := by simpa using h3
        rw [this]; decide
    · exact hfix b (List.mem_of_mem_tail hb) c h2

/-! ## Document-frequency pruning of a ubiquitous term -/

theorem uniqueFirstAux_sub [DecidableEq α] :
    ∀ (l : List α) (seen : List α) (x : α), x ∈ uniqueFirstAux seen l → x ∈ l := by
  intro l
  induction l with
  | nil => intro seen x hx; cases hx
  | cons a as ih =>
    intro seen x hx
    rw [uniqueFirstAux] at hx
    split at hx
    · exact List.mem_cons_of_mem _ (ih seen x hx)
    · rcases List.mem_cons.mp hx with rfl | hx'
      · simp
      · exact List.mem_cons_of_mem _ (ih _ x hx')

theorem uniqueFirst_sub [DecidableEq α] {l : List α} {x : α}
    (hx : x ∈ uniqueFirst l) : x ∈ l := uniqueFirstAux_sub l [] x hx

theorem tfidfVocabulary_kept {mf : Nat} {texts : List (Option String)} {w : String}
    (hw : w ∈ tfidfVocabulary mf texts) :
    w ∈ (texts.map docNgrams).flatten ∧
    2 ≤ dfCount (texts.map docNgrams) w ∧
    5 * dfCount (texts.map docNgrams) w ≤ 4 * texts.length := by
  unfold tfidfVocabulary at hw
  dsimp only at hw
  have hw2 : w ∈ (List.insertionSort (fun a b : String => strLeB a b = true)
      (uniqueFirst (texts.map docNgrams).flatten)).filter
      (fun t => decide (2 ≤ dfCount (texts.map docNgrams) t ∧
        5 * dfCount (texts.map docNgrams) t ≤ 4 * texts.length)) := by
    split at hw
    · exact hw
    · exact (List.mem_insertionSort _).mp (List.mem_of_mem_take hw)
  have hf := List.mem_filter.mp hw2
  have hcond := of_decide_eq_true hf.2
  refine ⟨?_, hcond.1, hcond.2⟩
  exact uniqueFirst_sub ((List.mem_insertionSort _).mp hf.1)

theorem crash_mem_docNgrams {t : Option String} (h : "crash" ∈ docTokens t) :
    "crash" ∈ docNgrams t := by
  unfold docNgrams
  apply List.mem_append_left
  exact List.mem_filter.mpr ⟨h, by decide⟩

theorem crash_not_in_vocab {mf : Nat} {texts : List (Option String)}
    (hne : texts ≠ []) (hall : ∀ t ∈ texts, "crash" ∈ docTokens t) :
    "crash" ∉ tfidfVocabulary mf texts := by
  intro hw
  rcases tfidfVocabulary_kept hw with ⟨_, hdf1, hdf2⟩
  have hdfall : dfCount (texts.map docNgrams) "crash" = texts.length := by
    unfold dfCount
    rw [List.filter_eq_self.mpr]
    · simp
    · intro d hd
      rcases List.mem_map.mp hd with ⟨t, ht, rfl⟩
      simpa using List.elem_iff.mpr (crash_mem_docNgrams (hall t ht))
  rw [hdfall] at hdf1 hdf2
  have : texts.length = 0 := by omega
  exact hne (List.length_eq_zero.mp this)

theorem tfidfVocabulary_lower {mf : Nat} {texts : List (Option String)} {w : String}
    (hw : w ∈ tfidfVocabulary mf texts) : lowerStr w = w := by
  rcases List.mem_flatten.mp (tfidfVocabulary_kept hw).1 with ⟨d, hd, hwd⟩
  rcases List.mem_map.mp hd with ⟨t, _, rfl⟩
  exact docNgrams_lower_fixed t w hwd

theorem extractKeywordsTfidf_fst {score : String → ℚ} {mf : Nat}
    {texts : List (Option String)} {p : KScore}
    (hp : p ∈ extractKeywordsTfidf score mf texts) :
    p.1 ∈ tfidfVocabulary mf texts := by
  unfold extractKeywordsTfidf at hp
  dsimp only at hp
  split at hp
  · cases hp
  · have := (List.mem_insertionSort _).mp hp
    rcases List.mem_map.mp this with ⟨w, hw, rfl⟩
    exact hw

/-! ## Binding of a present `crash` keyword to `App Reliability & Bugs` -/

theorem themesInv_bound_matched {kwds : List KScore} {prev : List (String × List String)}
    {st : ThemeMap × List String} (h : ThemesInv kwds prev st) {s : String}
    (hs : s ∈ st.2) : ∃ tp ∈ prev, ∃ p ∈ tp.2, patMatch p s := by
  have hfl := (h.asgIff s).mp hs
  rcases List.mem_flatten.mp hfl with ⟨ch, hch, hsch⟩
  rcases List.mem_map.mp hch with ⟨q, hq, rfl⟩
  rcases List.mem_iff_getElem.mp hq with ⟨k, hk, hqk⟩
  have hk2 : k < prev.length := by
    have hlen : st.1.length = prev.length := by
      have := congrArg List.length h.names
      simpa using this
    omega
  have hmem : s ∈ (st.1[k]).2.map Prod.fst := by
    rw [hqk]
    exact hsch
  exact ⟨prev[k], List.getElem_mem hk2, (h.matched k hk hk2 s hmem).1⟩

theorem take3_no_crash_match :
    ∀ tp ∈ themePatterns.take 3, ∀ p ∈ tp.2, ¬ patMatch p "crash" := by decide

theorem crash_binds {kwds : List KScore} (bank : String)
    (hck : "crash" ∈ lowKeys kwds) :
    ∃ l, ("App Reliability & Bugs", l) ∈ identifyThemes kwds bank ∧
      "crash" ∈ l.map Prod.fst := by
  rcases keywordLookup_isSome hck with ⟨sc, hlook⟩
  -- split the taxonomy fold at the fourth theme
  have hsplit : themePatterns
      = themePatterns.take 3 ++ themePatterns[3] :: themePatterns.drop 4 := by decide
  have hI3 : ThemesInv kwds (themePatterns.take 3)
      ((themePatterns.take 3).foldl (procTheme kwds)
        (([] : ThemeMap), ([] : List String))) := by
    have := themesInv_fold (themePatterns.take 3) [] _ (themesInv_init kwds)
    simpa using this
  set st3 := (themePatterns.take 3).foldl (procTheme kwds)
    (([] : ThemeMap), ([] : List String)) with hst3
  have hnc : "crash" ∉ st3.2 := by
    intro hm
    rcases themesInv_bound_matched hI3 hm with ⟨tp, htp, p, hp, hpm⟩
    exact take3_no_crash_match tp htp p hp hpm
  -- the fourth theme binds "crash" via its first seed pattern
  have hlow : lowerStr "crash" = "crash" := by decide
  have hcontains : ¬ st3.2.contains "crash" = true := fun hcon => hnc (by simpa using hcon)
  have hex : exactStep kwds (lowerStr "crash") (([] : List KScore), st3.2)
      = ([("crash", sc)], "crash" :: st3.2) := by
    unfold exactStep
    rw [hlow, hlook]
    dsimp only
    rw [if_neg hcontains]
    simp
  have hmem1 : ("crash", sc) ∈ (procPattern kwds "crash"
      (([] : List KScore), st3.2)).1 := by
    unfold procPattern
    unfold procPartial
    rcases @partialFold_cur (lowerStr "crash") kwds
      (exactStep kwds (lowerStr "crash") (([] : List KScore), st3.2)) with ⟨d, hd⟩
    rw [hd, hex]
    simp
  have hpats4 : (themePatterns[3]).2
      = "crash" :: (themePatterns[3]).2.tail := by decide
  have hinner : ("crash", sc) ∈ ((themePatterns[3]).2.foldl
      (fun s pat => procPattern kwds pat s) (([] : List KScore), st3.2)).1 := by
    rw [hpats4, List.foldl_cons]
    exact patsFold_cur_mem hmem1
  have hentry : ("App Reliability & Bugs",
      ((themePatterns[3]).2.foldl
        (fun s pat => procPattern kwds pat s) (([] : List KScore), st3.2)).1)
      ∈ (procTheme kwds st3 (themePatterns[3])).1 := by
    unfold procTheme
    have hname : (themePatterns[3]).1 = "App Reliability & Bugs" := by decide
    rw [← hname]
    simp
  have hacc : ("App Reliability & Bugs",
      ((themePatterns[3]).2.foldl
        (fun s pat => procPattern kwds pat s) (([] : List KScore), st3.2)).1)
      ∈ themesAcc kwds := by
    unfold themesAcc
    conv_lhs => rw [hsplit]
    rw [List.foldl_append, List.foldl_cons]
    exact themesFold_acc_mono _ _ _ hentry
  refine ⟨List.insertionSort (fun a b : KScore => b.2 ≤ a.2)
    ((themePatterns[3]).2.foldl
      (fun s pat => procPattern kwds pat s) (([] : List KScore), st3.2)).1, ?_, ?_⟩
  · rw [identifyThemes_eq]
    apply List.mem_map.mpr
    refine ⟨("App Reliability & Bugs",
      ((themePatterns[3]).2.foldl
        (fun s pat => procPattern kwds pat s) (([] : List KScore), st3.2)).1), ?_, rfl⟩
    apply List.mem_filter.mpr
    refine ⟨hacc, ?_⟩
    have hne : ((themePatterns[3]).2.foldl
        (fun s pat => procPattern kwds pat s) (([] : List KScore), st3.2)).1 ≠ [] := by
      intro hnil
      rw [hnil] at hinner
      cases hinner
    simpa [List.isEmpty_iff] using hne
  · have hperm := List.perm_insertionSort (fun a b : KScore => b.2 ≤ a.2)
      ((themePatterns[3]).2.foldl
        (fun s pat => procPattern kwds pat s) (([] : List KScore), st3.2)).1
    exact (hperm.map Prod.fst).mem_iff.mpr (List.mem_map.mpr ⟨_, hinner, rfl⟩)

/-! ## Claim C2 -/

/-- Counterexample to C2 as stated: on a corpus in which every document
contains the word `crash`, the term has document frequency 100% and is
pruned by the `max_df=0.8` filter, so it is not among the extracted
keywords; here no keyword of `App Reliability & Bugs` survives at all,
the theme is dropped from the mapping, and the documents are not tagged
with it. -/
theorem claim_C2_counterexample :
    ("crash" ∈ docTokens (some "crash aa money login") ∧
     "crash" ∈ docTokens (some "money crash bb login") ∧
     "crash" ∈ docTokens (some "money login crash cc") ∧
     "crash" ∈ docTokens (some "money login dd crash") ∧
     "crash" ∈ docTokens (some "ee crash zz qq")) ∧
    "crash" ∉ (extractKeywordsTfidf (fun _ => 1) 100 corpusC2).map Prod.fst ∧
    "App Reliability & Bugs" ∉
      (identifyThemes (extractKeywordsTfidf (fun _ => 1) 100 corpusC2) "CBE").map
        Prod.fst ∧
    "App Reliability & Bugs" ∉ assignThemeToReview (some "crash aa money login")
      (identifyThemes (extractKeywordsTfidf (fun _ => 1) 100 corpusC2) "CBE") := by
  decide

/-- Claim C2 as amended: when every document of a non-empty corpus
contains the word `crash`, the `max_df=0.8` pruning removes the term, so
`crash` is not among the extracted keywords (in lowered form) and no
theme's bound-keyword list contains it.  Conversely, whenever `crash` is
among the (lowered) extracted keywords, theme binding binds it to
`App Reliability & Bugs` and every non-blank review containing `crash`
is tagged with that theme. -/
theorem claim_C2 :
    (∀ (texts : List (Option String)) (score : String → ℚ) (mf : Nat),
      texts ≠ [] → (∀ t ∈ texts, "crash" ∈ docTokens t) →
      "crash" ∉ (extractKeywordsTfidf score mf texts).map (fun p => lowerStr p.1) ∧
      ∀ (bank t : String) (l : List KScore),
        (t, l) ∈ identifyThemes (extractKeywordsTfidf score mf texts) bank →
        "crash" ∉ l.map Prod.fst) ∧
    (∀ (kwds : List KScore) (bank : String), "crash" ∈ lowKeys kwds →
      (∃ l, ("App Reliability & Bugs", l) ∈ identifyThemes kwds bank ∧
        "crash" ∈ l.map Prod.fst) ∧
      ∀ review : Option String, isBlankT review = false →
        substrB "crash" (lowerStr (strOf review)) = true →
        "App Reliability & Bugs" ∈ assignThemeToReview review (identifyThemes kwds bank)) := by
  constructor
  · intro texts score mf hne hall
    have hlowK : "crash" ∉ (extractKeywordsTfidf score mf texts).map
        (fun p => lowerStr p.1) := by
      intro hm
      rcases List.mem_map.mp hm with ⟨p, hp, hpl⟩
      have hpl2 : lowerStr p.1 = "crash" := hpl
      have hv := extractKeywordsTfidf_fst hp
      rw [tfidfVocabulary_lower hv] at hpl2
      rw [hpl2] at hv
      exact crash_not_in_vocab hne hall hv
    refine ⟨hlowK, ?_⟩
    intro bank t l hl hcm
    exact hlowK (identifyThemes_keys_mem hl hcm)
  · intro kwds bank hck
    refine ⟨crash_binds bank hck, ?_⟩
    intro review hbr hsub
    rcases @crash_binds kwds bank hck with ⟨l, hmem, hcl⟩
    rcases List.mem_map.mp hcl with ⟨kp, hkp, hkp1⟩
    exact assign_tag_of_match hbr hmem ⟨kp, hkp, by
      have hkp2 : kp.1 = "crash" := hkp1
      rw [hkp2]
      exact hsub⟩

/-- Witness for C2 (amended): the pruning half at the concrete corpus,
and the positive half when `crash` is a keyword. -/
theorem claim_C2_witness :
    ((corpusC2 ≠ [] ∧ (∀ t ∈ corpusC2, "crash" ∈ docTokens t)) ∧
      ("crash" ∉ (extractKeywordsTfidf (fun _ => 1) 100 corpusC2).map
          (fun p => lowerStr p.1) ∧
        ∀ (bank t : String) (l : List KScore),
          (t, l) ∈ identifyThemes (extractKeywordsTfidf (fun _ => 1) 100 corpusC2) bank →
          "crash" ∉ l.map Prod.fst)) ∧
    (("crash" ∈ lowKeys [(("crash" : String), (1 : ℚ))]) ∧
      ((∃ l, ("App Reliability & Bugs", l)
          ∈ identifyThemes [(("crash" : String), (1 : ℚ))] "CBE" ∧
          "crash" ∈ l.map Prod.fst) ∧
        ∀ review : Option String, isBlankT review = false →
          substrB "crash" (lowerStr (strOf review)) = true →
          "App Reliability & Bugs" ∈ assignThemeToReview review
            (identifyThemes [(("crash" : String), (1 : ℚ))] "CBE"))) :=
  ⟨⟨⟨by decide, by decide⟩,
    claim_C2.1 corpusC2 (fun _ => 1) 100 (by decide) (by decide)⟩,
   ⟨by decide, claim_C2.2 [(("crash" : String), (1 : ℚ))] "CBE" (by decide)⟩⟩
